import Mathlib

/-!
Verification of the `z.Buffer` growable record buffer (`src/z/buffer.go`).

The development shallowly embeds the `UseCalloc` variant of the buffer: the
backing region is a `List Nat` of byte values, machine integers are `Nat`
(with explicit `% 2 ^ 32` where the Go code casts to `uint32`), and the few
signed comparisons performed by `Grow` are written over `Int` exactly as the
Go source writes them.  Fatal conditions (`panic`, `log.Fatalf`) are modelled
by `Option`: `none` is an aborted execution.  The `UseMmap` variant performs
real file I/O (mmap, truncate) and is outside the pure embedding; every
operation below is the byte-level behaviour of the `UseCalloc` code path.

Go's `sort.Slice` (used by `sortHelper.sortSmall`) promises only that the
resulting slice is sorted by the supplied comparator; it is modelled here by
insertion sort (`insSort`).  The scratch buffer `tmp` used by the sorter has
maximum size `2^63-1` and is only ever written with spans taken from the main
buffer, so its growth never fails; it is modelled by the list value it holds.
-/

namespace Z

/-- Byte strings are lists of byte values. -/
abbrev Bytes := List Nat

/-- Model of the source's `type LessFunc func(a, b []byte) bool`. -/
abbrev LessFunc : Type := List Nat → List Nat → Bool

/-- Model of `z.Calloc`: a zeroed region of `n` bytes. -/
def Calloc (n : Nat) : Bytes := List.replicate n 0

/-- Semantics of Go's `copy(dst[pos:], src)`: overwrite
`min src.length (dst.length - pos)` bytes of `dst` starting at `pos`.
The length of `dst` never changes. -/
def copyInto (dst : Bytes) (pos : Nat) (src : Bytes) : Bytes :=
  let k := min src.length (dst.length - pos)
  dst.take pos ++ src.take k ++ dst.drop (pos + k)

/-- Semantics of Go's `copy(dst[s:e], src)` (a copy whose destination window
is capped at `e`). -/
def copyRange (dst : Bytes) (s e : Nat) (src : Bytes) : Bytes :=
  copyInto dst s (src.take (e - s))

/-- The byte segment `[i, j)` of a region. -/
def seg (l : Bytes) (i j : Nat) : Bytes := (l.take j).drop i

/-- Region `l` with segment `[i, j)` replaced by `x`. -/
def bufReplace (l : Bytes) (i j : Nat) (x : Bytes) : Bytes :=
  l.take i ++ x ++ l.drop j

/-- Big-endian 4-byte encoding, as produced by `binary.BigEndian.PutUint32`
after Go's `uint32` cast. -/
def encodeU32 (n : Nat) : Bytes :=
  [n / 2 ^ 24 % 256, n / 2 ^ 16 % 256, n / 2 ^ 8 % 256, n % 256]

/-- Big-endian 4-byte decoding, as performed by `binary.BigEndian.Uint32`
on the first four bytes of a slice. -/
def readU32 (l : Bytes) : Nat :=
  l.getD 0 0 * 2 ^ 24 + l.getD 1 0 * 2 ^ 16 + l.getD 2 0 * 2 ^ 8 + l.getD 3 0

/-- A record as laid out in the buffer: 4-byte big-endian length then the
payload bytes. -/
def encRec (p : Bytes) : Bytes := encodeU32 p.length ++ p

/-- A sequence of records laid out contiguously. -/
def encRecs (ps : List Bytes) : Bytes := (ps.map encRec).flatten

/-- Model of `z.Buffer` (UseCalloc variant).  `offset` is the write cursor,
`curSz` the current capacity, `maxSz` the maximum capacity. -/
structure Buffer where
  buf : Bytes
  offset : Nat
  curSz : Nat
  maxSz : Nat
  deriving Repr, DecidableEq

/-- Model of `NewBufferWith(sz, maxSz, UseCalloc)`: defaults `sz` to 64 and
`maxSz` to `math.MaxInt32` when zero, allocates a zeroed region, writes the
reserved sentinel byte at index 0 and starts the cursor at 1. -/
def NewBufferWith (sz maxSz : Nat) : Buffer :=
  let sz := if sz = 0 then 64 else sz
  let maxSz := if maxSz = 0 then 2 ^ 31 - 1 else maxSz
  { buf := (Calloc sz).set 0 0
    offset := 1
    curSz := sz
    maxSz := maxSz }

/-- Model of `NewBuffer(sz)`: a UseCalloc buffer with `maxSz = math.MaxInt64`. -/
def NewBuffer (sz : Nat) : Buffer := NewBufferWith sz (2 ^ 63 - 1)

/-- Model of `Buffer.Grow(n)`.  `none` models the two fatal panics
(uninitialized buffer; `maxSz - offset < n`).  Otherwise: no-op when
`curSz - offset > n`, else capacity grows by
`min (max (curSz + n) n) (1 <<< 30)`-but-at-least-`n` and the region is
reallocated (zeroed, first `offset` bytes copied over). -/
def Buffer.Grow (b : Buffer) (n : Nat) : Option Buffer :=
  if b.buf = [] then none
  else if (b.maxSz : Int) - (b.offset : Int) < (n : Int) then none
  else if (b.curSz : Int) - (b.offset : Int) > (n : Int) then some b
  else
    let growBy := b.curSz + n
    let growBy := if growBy > 2 ^ 30 then 2 ^ 30 else growBy
    let growBy := if n > growBy then n else growBy
    let newSz := b.curSz + growBy
    some { b with curSz := newSz
                  buf := copyInto (Calloc newSz) 0 (b.buf.take b.offset) }

/-- Model of `Buffer.Allocate(n)`: grow, advance the cursor, return the start
offset of the carved span (the Go slice view is identified by its offset). -/
def Buffer.Allocate (b : Buffer) (n : Nat) : Option (Buffer × Nat) :=
  (b.Grow n).map fun b1 => ({ b1 with offset := b1.offset + n }, b1.offset)

/-- `Buffer.Allocate(n)` followed by the caller immediately filling the
returned span with `p` (`n = p.length`): the usage pattern of every
`Allocate` call site covered by the claims. -/
def Buffer.AllocateFill (b : Buffer) (p : Bytes) : Option Buffer :=
  (b.Grow p.length).map fun b1 =>
    { b1 with buf := copyInto b1.buf b1.offset p
              offset := b1.offset + p.length }

/-- Model of `Buffer.AllocateOffset(n)`. -/
def Buffer.AllocateOffset (b : Buffer) (n : Nat) : Option (Buffer × Nat) :=
  b.Allocate n

/-- Model of `Buffer.writeLen(sz)`: allocate 4 bytes and store the big-endian
`uint32(sz)` there. -/
def Buffer.writeLen (b : Buffer) (sz : Nat) : Option Buffer :=
  b.AllocateFill (encodeU32 sz)

/-- Model of `Buffer.SliceAllocate(sz)` with the returned span immediately
filled with `p` (`sz = p.length`): grow for `4 + sz`, write the length
prefix, then allocate and fill the payload span. -/
def Buffer.SliceAllocateFill (b : Buffer) (p : Bytes) : Option Buffer := do
  let b1 ← b.Grow (4 + p.length)
  let b2 ← b1.writeLen p.length
  b2.AllocateFill p

/-- Model of `Buffer.Write(p)`: grow, copy starting at the cursor, advance
the cursor by the number of bytes copied. -/
def Buffer.Write (b : Buffer) (p : Bytes) : Option Buffer :=
  (b.Grow p.length).map fun b1 =>
    let k := min p.length (b1.buf.length - b1.offset)
    { b1 with buf := copyInto b1.buf b1.offset p, offset := b1.offset + k }

/-- Record read at an offset, over a raw region and write cursor: the body of
`Buffer.Slice`.  Returns `(none, 0)` when `offset >= writeCursor`, otherwise
decodes the 4-byte length, returns the payload span and the next offset,
collapsed to 0 when it reaches or passes the write cursor. -/
def sliceRaw (buf : Bytes) (wcur off : Nat) : Option Bytes × Nat :=
  if off ≥ wcur then (none, 0)
  else
    let sz := readU32 (buf.drop off)
    let st := off + 4
    let nx := st + sz
    (some (seg buf st nx), if nx ≥ wcur then 0 else nx)

/-- Model of `Buffer.Slice(offset)`. -/
def Buffer.Slice (b : Buffer) (off : Nat) : Option Bytes × Nat :=
  sliceRaw b.buf b.offset off

/-- Model of `Buffer.WriteAt(p, offset)`: out-of-bounds error (`none`) when
the span would exceed the region length, otherwise copy in place; the cursor
and capacities are untouched. -/
def Buffer.WriteAt (b : Buffer) (p : Bytes) (off : Nat) : Option (Buffer × Nat) :=
  if off + p.length > b.buf.length then none
  else some ({ b with buf := copyInto b.buf off p }, p.length)

/-- Model of `Buffer.WriteSliceAt(p, offset)`: bounds-checks the 4-byte
prefix plus payload, writes the prefix then the payload. -/
def Buffer.WriteSliceAt (b : Buffer) (p : Bytes) (off : Nat) : Option (Buffer × Nat) :=
  if off + 4 + p.length > b.buf.length then none
  else
    let buf1 := copyInto b.buf off (encodeU32 p.length)
    some ({ b with buf := copyInto buf1 (off + 4) p }, p.length)

/-- Model of `Buffer.ReadAt(n, offset)`: bounds-checked read of `n` bytes. -/
def Buffer.ReadAt (b : Buffer) (n off : Nat) : Option Bytes :=
  if off + n > b.buf.length then none
  else some (seg b.buf off (off + n))

/-- Model of `Buffer.Reset()`. -/
def Buffer.Reset (b : Buffer) : Buffer := { b with offset := 1 }

/-- Model of `Buffer.IsEmpty()`. -/
def Buffer.IsEmpty (b : Buffer) : Bool := b.offset == 1

/-- Model of `Buffer.Len()`. -/
def Buffer.Len (b : Buffer) : Nat := b.offset

/-- Model of `Buffer.Bytes()`: the region from index 1 up to the cursor. -/
def Buffer.Bytes (b : Buffer) : Bytes := seg b.buf 1 b.offset

/-- Model of `Buffer.First(n)`. -/
def Buffer.First (b : Buffer) (n : Nat) : Option (List Nat) :=
  if b.buf.length < n then none else some (b.buf.take n)

/-- Model of `Buffer.Data(offset)`: fatal (`none`) past `curSz`. -/
def Buffer.Data (b : Buffer) (off : Nat) : Option (List Nat) :=
  if off > b.curSz then none else some (seg b.buf off b.curSz)

/-- Model of `rawSlice(buf)`: the whole encoded record (length prefix
included) at the head of a slice. -/
def rawSlice (buf : Bytes) : Bytes := buf.take (4 + readU32 buf)

/-- The payload read at an offset, as the sort comparator call sites read it
(`left, _ := s.b.Slice(...)`). -/
def payloadAt (buf : Bytes) (wcur off : Nat) : Bytes :=
  ((sliceRaw buf wcur off).1).getD []

/-- Insertion step: place `x` before the first element `y` with
`lt y x = false`. -/
def ordInsert {α : Type} (lt : α → α → Bool) (x : α) : List α → List α
  | [] => [x]
  | y :: ys => if lt y x then y :: ordInsert lt x ys else x :: y :: ys

/-- Insertion sort.  Models Go's `sort.Slice`, whose contract only promises a
permutation that is sorted under the supplied strict comparator. -/
def insSort {α : Type} (lt : α → α → Bool) : List α → List α
  | [] => []
  | x :: xs => ordInsert lt x (insSort lt xs)

/-- The record-offset collection loop of `sortHelper.sortSmall`:
`for next != 0 && next < end { small = append(small, next); _, next = Slice(next) }`.
`fuel` bounds the iteration count; every reachable call makes strict
progress, so `fuel = endP` always suffices. -/
def collectSmall (buf : Bytes) (wcur endP : Nat) : Nat → Nat → List Nat
  | 0, _ => []
  | fuel + 1, next =>
    if next ≠ 0 ∧ next < endP then
      next :: collectSmall buf wcur endP fuel (sliceRaw buf wcur next).2
    else []

/-- Model of `sortHelper.sortSmall(start, end)`: collect the record offsets
of the span, sort the offsets by the comparator applied to their decoded
payloads, write the records into the scratch buffer in sorted offset order,
and copy the scratch content back over `[start, end)` (the Go code asserts
that exactly `end - start` bytes are copied back). -/
def sortSmall (less : Bytes → Bytes → Bool) (wcur : Nat) (buf : Bytes)
    (start endP : Nat) : Bytes :=
  let small := collectSmall buf wcur endP endP start
  let sorted := insSort (fun i j => less (payloadAt buf wcur i) (payloadAt buf wcur j)) small
  let tmp := (sorted.map (fun off => rawSlice (buf.drop off))).flatten
  copyRange buf start endP tmp

/-- The merge loop of `sortHelper.merge`.  `left` is the scratch copy of the
left half (staged in `tmp` before the loop), the right half is the live view
`[rpos, hoff)` of the buffer, `start` is the destination cursor and `endP`
the end of the destination range.  `fuel` bounds the iterations; every
iteration advances `start`, so `fuel = hoff - loff` suffices. -/
def mergeLoop (less : Bytes → Bytes → Bool) : Nat → Bytes → Bytes → Nat → Nat → Nat → Nat → Bytes
  | 0, buf, _, _, _, _, _ => buf
  | fuel + 1, buf, left, rpos, hoff, start, endP =>
    if start < endP then
      if left.length = 0 then copyRange buf start endP (seg buf rpos hoff)
      else if hoff - rpos = 0 then copyRange buf start endP left
      else
        let ls := rawSlice left
        let rs := rawSlice (seg buf rpos hoff)
        if less (ls.drop 4) (rs.drop 4) then
          mergeLoop less fuel (copyInto buf start ls) (left.drop ls.length)
            rpos hoff (start + ls.length) endP
        else
          mergeLoop less fuel (copyInto buf start rs) left
            (rpos + rs.length) hoff (start + rs.length) endP
    else buf

/-- Model of `sortHelper.merge(left, right, start, end)` as invoked by
`sortHelper.sort`: `left` is the view `[loff, moff)`, `right` the view
`[moff, hoff)`, `start = loff`, `end = hoff`.  Returns unchanged if either
half is empty; otherwise stages the left half in the scratch buffer
(modelled by taking its value) and runs the merge loop. -/
def mergeInPlace (less : Bytes → Bytes → Bool) (buf : Bytes)
    (loff moff hoff : Nat) : Bytes :=
  let left := seg buf loff moff
  if left.length = 0 ∨ (seg buf moff hoff).length = 0 then buf
  else mergeLoop less (hoff - loff) buf left moff hoff loff hoff

/-- Model of `sortHelper.sort(lo, hi)` over the chunk-boundary offsets.
`lo = mid` (single chunk or empty) returns the buffer unchanged (the Go code
returns the byte view `[offsets[lo], offsets[hi])`); otherwise the two
halves are sorted recursively and merged. -/
def sortRec (less : Bytes → Bytes → Bool) (offsets : List Nat) (buf : Bytes)
    (lo hi : Nat) : Bytes :=
  let mid := lo + (hi - lo) / 2
  if h : lo = mid then buf
  else
    let buf1 := sortRec less offsets buf lo mid
    let buf2 := sortRec less offsets buf1 mid hi
    mergeInPlace less buf2 (offsets.getD lo 0) (offsets.getD mid 0) (offsets.getD hi 0)
termination_by hi - lo
decreasing_by
  · have h1 : (hi - lo) / 2 ≥ 1 := by omega
    have h2 : (hi - lo) / 2 ≤ hi - lo := Nat.div_le_self _ _
    have h3 : (hi - lo) / 2 < hi - lo := by
      refine Nat.div_lt_self ?_ (by omega)
      omega
    omega
  · have h1 : (hi - lo) / 2 ≥ 1 := by omega
    have h2 : (hi - lo) / 2 ≤ hi - lo := Nat.div_le_self _ _
    omega

/-- The chunk-boundary collection loop of `SortSliceBetween`: every 1024th
record offset is appended.  `fuel = endP` suffices (strict progress). -/
def walkOffsets (buf : Bytes) (wcur endP : Nat) : Nat → Nat → Nat → List Nat
  | 0, _, _ => []
  | fuel + 1, next, count =>
    if next ≠ 0 ∧ next < endP then
      (if count % 1024 = 0 then [next] else []) ++
        walkOffsets buf wcur endP fuel (sliceRaw buf wcur next).2 (count + 1)
    else []

/-- The chunk-sort pass of `SortSliceBetween`: `sortSmall` over every
adjacent boundary pair. -/
def sortSmallChain (less : Bytes → Bytes → Bool) (wcur : Nat) :
    Bytes → Nat → List Nat → Bytes
  | buf, _, [] => buf
  | buf, left, off :: rest =>
    sortSmallChain less wcur (sortSmall less wcur buf left off) off rest

/-- Model of `Buffer.SortSliceBetween(start, end, less)`.  `none` models the
fatal exits: the `start == 0` panic and the `assert(len(offsets) > 0)`
failure (the latter is unreachable, see `walkOffsets_ne_nil` below).  The
scratch buffer (`NewBuffer(szTmp)`, max size `2^63-1`, reset before each
use) is modelled by the byte values it holds at each use site. -/
def Buffer.SortSliceBetween (b : Buffer) (start endP : Nat)
    (less : LessFunc) : Option Buffer :=
  if start ≥ endP then some b
  else if start = 0 then none
  else
    let offsets := walkOffsets b.buf b.offset endP endP start 0
    if offsets = [] then none
    else
      let offsets := if offsets.getLast? ≠ some endP then offsets ++ [endP] else offsets
      let buf1 :=
        match offsets with
        | [] => b.buf
        | l :: rest => sortSmallChain less b.offset b.buf l rest
      let buf2 := sortRec less offsets buf1 0 (offsets.length - 1)
      some { b with buf := buf2 }

/-- Model of `Buffer.SortSlice(less)`. -/
def Buffer.SortSlice (b : Buffer) (less : LessFunc) : Option Buffer :=
  b.SortSliceBetween 1 b.offset less

/-- Abstract record-level tie-right merge: the order produced by the byte
level merge loop. -/
def mergeRecs (less : Bytes → Bytes → Bool) : List Bytes → List Bytes → List Bytes
  | [], ys => ys
  | x :: xs, [] => x :: xs
  | x :: xs, y :: ys =>
    if less x y then x :: mergeRecs less xs (y :: ys)
    else y :: mergeRecs less (x :: xs) ys
termination_by xs ys => xs.length + ys.length

/-- Abstract chunking: runs of 1024 consecutive records. -/
def chunks1024 (ps : List Bytes) : List (List Bytes) :=
  if h : ps = [] then [] else ps.take 1024 :: chunks1024 (ps.drop 1024)
termination_by ps.length
decreasing_by
  have hlen : 0 < ps.length := List.length_pos.mpr h
  simp only [List.length_drop]
  omega

/-- Abstract hierarchical merge over per-chunk record lists, mirroring the
index recursion of `sortHelper.sort`. -/
def treeSortF (less : Bytes → Bytes → Bool) (gs : Nat → List Bytes)
    (lo hi : Nat) : List Bytes :=
  let mid := lo + (hi - lo) / 2
  if h : lo = mid then (if hi ≤ lo then [] else gs lo)
  else mergeRecs less (treeSortF less gs lo mid) (treeSortF less gs mid hi)
termination_by hi - lo
decreasing_by
  · have h3 : (hi - lo) / 2 < hi - lo := by
      refine Nat.div_lt_self ?_ (by omega)
      omega
    omega
  · have h1 : (hi - lo) / 2 ≥ 1 := by omega
    have h2 : (hi - lo) / 2 ≤ hi - lo := Nat.div_le_self _ _
    omega

/-- The abstract record permutation `SortSliceBetween` applies to a
well-formed span: chunk into runs of 1024, sort each chunk, then
hierarchically merge. -/
def absSort (less : Bytes → Bytes → Bool) (ps : List Bytes) : List Bytes :=
  let cs := (chunks1024 ps).map (insSort less)
  treeSortF less (fun i => cs.getD i []) 0 cs.length

/-- One full record-chain traversal from an offset: the list of results of
every `Slice` call made when walking until the sentinel 0 (or an empty
read).  `fuel = b.offset` suffices on well-formed chains. -/
def chainSteps (b : Buffer) : Nat → Nat → List (Option Bytes × Nat)
  | 0, _ => []
  | fuel + 1, off =>
    let r := b.Slice off
    match r.1 with
    | none => [r]
    | some _ => r :: (if r.2 = 0 then [] else chainSteps b fuel r.2)

/-- The payloads yielded by a full traversal from offset 1. -/
def chainRecords (b : Buffer) : List Bytes :=
  (chainSteps b b.offset 1).filterMap Prod.fst

/-- The next-offsets returned by a full traversal from offset 1. -/
def chainNexts (b : Buffer) : List Nat :=
  (chainSteps b b.offset 1).map Prod.snd

/-- The payload walk from `start` to `endP` (the loop shape used by the
sorter): payloads of the records visited while `next ≠ 0 ∧ next < endP`. -/
def walkPayloads (buf : Bytes) (wcur endP : Nat) : Nat → Nat → List Bytes
  | 0, _ => []
  | fuel + 1, next =>
    if next ≠ 0 ∧ next < endP then
      payloadAt buf wcur next ::
        walkPayloads buf wcur endP fuel (sliceRaw buf wcur next).2
    else []

/-- A sequence of `SliceAllocate(len p)` calls, each returned span
immediately filled with `p`. -/
def writeAll (b : Buffer) (ps : List Bytes) : Option Buffer :=
  ps.foldlM Buffer.SliceAllocateFill b

/-- The buffer operations quantified over by the state-invariant claim. -/
inductive Op where
  | grow (n : Nat)
  | allocate (n : Nat)
  | allocFill (p : Bytes)
  | sliceAlloc (p : Bytes)
  | write (p : Bytes)
  | writeAt (p : Bytes) (off : Nat)
  | writeSliceAt (p : Bytes) (off : Nat)
  | reset

/-- One buffer operation; `none` is a fatal (panicking) execution. -/
def stepOp (b : Buffer) : Op → Option Buffer
  | .grow n => b.Grow n
  | .allocate n => (b.Allocate n).map Prod.fst
  | .allocFill p => b.AllocateFill p
  | .sliceAlloc p => b.SliceAllocateFill p
  | .write p => b.Write p
  | .writeAt p off => (b.WriteAt p off).map Prod.fst
  | .writeSliceAt p off => (b.WriteSliceAt p off).map Prod.fst
  | .reset => some b.Reset

/-- A sequence of buffer operations; `none` as soon as one panics. -/
def runOps (b : Buffer) (ops : List Op) : Option Buffer :=
  ops.foldlM stepOp b

/-- Record start offsets of a record list laid out from `start`. -/
def recOffsets (start : Nat) : List Bytes → List Nat
  | [] => []
  | p :: ps => start :: recOffsets (start + (4 + p.length)) ps

/-- The offsets collected by the boundary walk of `SortSliceBetween`: the
start offset of every record whose ordinal (from `count`) is divisible by
1024. -/
def chunkMarks (count start : Nat) : List Bytes → List Nat
  | [] => []
  | p :: ps =>
    (if count % 1024 = 0 then [start] else []) ++
      chunkMarks (count + 1) (start + (4 + p.length)) ps

/-- Chunk boundary offsets, final end offset included: the `offsets` array
the sorter works with. -/
def chunkBounds (start : Nat) : List (List Bytes) → List Nat
  | [] => [start]
  | c :: cs => start :: chunkBounds (start + (encRecs c).length) cs

/-- The state invariant of an initialized `UseCalloc` buffer: the write
cursor starts past the reserved sentinel byte, never passes the current
capacity, the region's physical length is the current capacity, and the
cursor never passes the maximum capacity. -/
def Inv (b : Buffer) : Prop :=
  1 ≤ b.offset ∧ b.offset ≤ b.curSz ∧ b.curSz = b.buf.length ∧ b.offset ≤ b.maxSz

instance (b : Buffer) : Decidable (Inv b) := by
  unfold Inv
  infer_instance

/-! ### List-surgery toolkit -/

theorem length_copyInto (dst : Bytes) (pos : Nat) (src : Bytes) :
    (copyInto dst pos src).length = dst.length := by
  simp only [copyInto, List.length_append, List.length_take, List.length_drop]
  omega

theorem copyInto_eq_bufReplace (dst : Bytes) (pos : Nat) (src : Bytes)
    (h : pos + src.length ≤ dst.length) :
    copyInto dst pos src = bufReplace dst pos (pos + src.length) src := by
  simp only [copyInto, bufReplace]
  have hk : min src.length (dst.length - pos) = src.length := by omega
  rw [hk, List.take_of_length_le (Nat.le_refl _)]

theorem seg_length (l : Bytes) (i j : Nat) (h1 : i ≤ j) (h2 : j ≤ l.length) :
    (seg l i j).length = j - i := by
  simp only [seg, List.length_drop, List.length_take]
  omega

theorem seg_zero_length (l : Bytes) : seg l 0 l.length = l := by
  simp [seg]

theorem length_bufReplace (l : Bytes) (i j : Nat) (x : Bytes)
    (h1 : i ≤ j) (h2 : j ≤ l.length) (h3 : x.length = j - i) :
    (bufReplace l i j x).length = l.length := by
  simp only [bufReplace, List.length_append, List.length_take, List.length_drop]
  omega

theorem take_bufReplace (l : Bytes) (i j : Nat) (x : Bytes) (h : i ≤ l.length) :
    (bufReplace l i j x).take i = l.take i := by
  rw [bufReplace, List.append_assoc, List.take_append_of_le_length (by simp; omega)]
  simp [List.take_take]

theorem drop_bufReplace (l : Bytes) (i j : Nat) (x : Bytes)
    (h1 : i ≤ j) (h2 : j ≤ l.length) (h3 : x.length = j - i) :
    (bufReplace l i j x).drop j = l.drop j := by
  have hA : (l.take i ++ x).length = j := by simp; omega
  rw [bufReplace, List.drop_append_of_le_length (by omega)]
  rw [List.drop_of_length_le (by omega)]
  simp

theorem bufReplace_congr_outside (l l' : Bytes) (i j : Nat) (x : Bytes)
    (h1 : l.take i = l'.take i) (h2 : l.drop j = l'.drop j) :
    bufReplace l i j x = bufReplace l' i j x := by
  simp [bufReplace, h1, h2]

theorem seg_eq_drop_take (l : Bytes) (i j : Nat) :
    seg l i j = (l.drop i).take (j - i) := by
  rcases Nat.le_total i j with h | h
  · have hij : i + (j - i) = j := by omega
    rw [List.take_drop, hij]
    rfl
  · have hji : j - i = 0 := by omega
    rw [hji, List.take_zero]
    refine List.eq_nil_of_length_eq_zero ?_
    simp only [seg, List.length_drop, List.length_take]
    omega

theorem seg_append_seg (l : Bytes) (i j k : Nat)
    (h1 : i ≤ j) (h2 : j ≤ k) (h3 : k ≤ l.length) :
    seg l i k = seg l i j ++ seg l j k := by
  have hsplit : l.take k = l.take j ++ seg l j k := by
    have h4 : (l.take k).take j = l.take j := by
      rw [List.take_take]
      congr 1
      omega
    conv_lhs => rw [← List.take_append_drop j (l.take k)]
    rw [h4]
    rfl
  rw [seg, hsplit, List.drop_append_of_le_length (by simp; omega)]
  rfl

theorem seg_bufReplace_self (l : Bytes) (i j : Nat) (x : Bytes)
    (h1 : i ≤ j) (h2 : j ≤ l.length) (h3 : x.length = j - i) :
    seg (bufReplace l i j x) i j = x := by
  have hti : (l.take i).length = i := by simp; omega
  rw [seg_eq_drop_take, bufReplace, List.append_assoc,
    List.drop_append_of_le_length (by omega), List.drop_of_length_le (by omega)]
  simp only [List.nil_append]
  rw [List.take_append_of_le_length (by omega), List.take_of_length_le (by omega)]

theorem bufReplace_seg (l : Bytes) (i j : Nat)
    (h1 : i ≤ j) (h2 : j ≤ l.length) :
    bufReplace l i j (seg l i j) = l := by
  rw [bufReplace, seg]
  have : l.take i = (l.take j).take i := by
    rw [List.take_take]
    congr 1
    omega
  conv_rhs => rw [← List.take_append_drop j l, ← List.take_append_drop i (l.take j)]
  rw [this]

theorem seg_bufReplace_left (l : Bytes) (i j a b : Nat) (x : Bytes)
    (hb : b ≤ i) (hil : i ≤ l.length) :
    seg (bufReplace l i j x) a b = seg l a b := by
  have h1 : (bufReplace l i j x).take b = l.take b := by
    have := take_bufReplace l i j x hil
    calc (bufReplace l i j x).take b = ((bufReplace l i j x).take i).take b := by
          rw [List.take_take]
          congr 1
          omega
      _ = (l.take i).take b := by rw [this]
      _ = l.take b := by
          rw [List.take_take]
          congr 1
          omega
  rw [seg, seg, h1]

theorem seg_bufReplace_right (l : Bytes) (i j a b : Nat) (x : Bytes)
    (h1 : i ≤ j) (h2 : j ≤ l.length) (h3 : x.length = j - i) (ha : j ≤ a) :
    seg (bufReplace l i j x) a b = seg l a b := by
  have hd : (bufReplace l i j x).drop a = l.drop a := by
    have hj := drop_bufReplace l i j x h1 h2 h3
    have : a = j + (a - j) := by omega
    rw [this, ← List.drop_drop, ← List.drop_drop, hj]
  rw [seg_eq_drop_take, seg_eq_drop_take, hd]

theorem bufReplace_adjacent (l : Bytes) (i m j : Nat) (x y : Bytes)
    (h1 : i ≤ m) (h2 : m ≤ j) (h3 : j ≤ l.length) (hx : x.length = m - i) :
    bufReplace (bufReplace l i m x) m j y = bufReplace l i j (x ++ y) := by
  have hlen : (bufReplace l i m x).length = l.length :=
    length_bufReplace l i m x h1 (by omega) hx
  have ht : (bufReplace l i m x).take m = l.take i ++ x := by
    have hA : (l.take i ++ x).length = m := by simp; omega
    rw [bufReplace, List.take_left' hA]
  have hd : (bufReplace l i m x).drop j = l.drop j := by
    have hj := drop_bufReplace l i m x h1 (by omega) hx
    have : j = m + (j - m) := by omega
    rw [this, ← List.drop_drop, ← List.drop_drop, hj]
  rw [bufReplace, ht, hd, bufReplace]
  simp [List.append_assoc]

theorem bufReplace_collapse (l : Bytes) (i j : Nat) (x y : Bytes)
    (h1 : i ≤ j) (h2 : j ≤ l.length) (hx : x.length = j - i) :
    bufReplace (bufReplace l i j x) i j y = bufReplace l i j y := by
  refine bufReplace_congr_outside _ _ _ _ _ ?_ ?_
  · exact take_bufReplace l i j x (by omega)
  · exact drop_bufReplace l i j x h1 h2 hx

theorem drop_eq_seg_append (l : Bytes) (i j : Nat) (h1 : i ≤ j) (h2 : j ≤ l.length) :
    l.drop i = seg l i j ++ l.drop j := by
  have : l.drop i = seg l i l.length := by
    simp [seg]
  rw [this, seg_append_seg l i j l.length h1 h2 (Nat.le_refl _)]
  simp [seg]

theorem seg_split (l : Bytes) (i k : Nat) (X Y : Bytes)
    (h : seg l i k = X ++ Y) (hik : i ≤ k) (hk : k ≤ l.length)
    (hX : i + X.length ≤ k) :
    seg l i (i + X.length) = X ∧ seg l (i + X.length) k = Y := by
  have hsplit := seg_append_seg l i (i + X.length) k (by omega) hX hk
  rw [h] at hsplit
  have hlen : (seg l i (i + X.length)).length = X.length := by
    rw [seg_length l i (i + X.length) (by omega) (by omega)]
    omega
  have := List.append_inj hsplit.symm (by omega)
  exact ⟨this.1, this.2⟩

/-! ### Record codec lemmas -/

theorem length_encodeU32 (n : Nat) : (encodeU32 n).length = 4 := rfl

theorem readU32_encodeU32_append (n : Nat) (r : Bytes) :
    readU32 (encodeU32 n ++ r) = n % 2 ^ 32 := by
  simp only [encodeU32, readU32, List.cons_append, List.nil_append, List.getD_cons_zero,
    List.getD_cons_succ]
  omega

theorem length_encRec (p : Bytes) : (encRec p).length = 4 + p.length := by
  simp [encRec, encodeU32]
  omega

theorem encRecs_nil : encRecs [] = [] := rfl

theorem encRecs_cons (p : Bytes) (ps : List Bytes) :
    encRecs (p :: ps) = encRec p ++ encRecs ps := rfl

theorem encRecs_append (ps qs : List Bytes) :
    encRecs (ps ++ qs) = encRecs ps ++ encRecs qs := by
  simp [encRecs]

theorem encRecs_eq_nil_iff (ps : List Bytes) : encRecs ps = [] ↔ ps = [] := by
  cases ps with
  | nil => simp [encRecs_nil]
  | cons p ps =>
    simp only [encRecs_cons]
    constructor
    · intro h
      have := congrArg List.length h
      simp [length_encRec] at this
    · intro h
      simp at h

theorem length_encRecs_cons (p : Bytes) (ps : List Bytes) :
    (encRecs (p :: ps)).length = 4 + p.length + (encRecs ps).length := by
  simp [encRecs_cons, length_encRec]

theorem length_encRecs_perm {ps qs : List Bytes} (h : ps.Perm qs) :
    (encRecs ps).length = (encRecs qs).length := by
  simp only [encRecs, List.length_flatten]
  exact ((h.map encRec).map List.length).sum_eq

theorem length_encRecs_le (ps : List Bytes) : ps.length ≤ (encRecs ps).length := by
  induction ps with
  | nil => simp [encRecs_nil]
  | cons p ps ih =>
    rw [length_encRecs_cons]
    simp only [List.length_cons]
    omega

theorem rawSlice_encRec_append (p : Bytes) (r : Bytes) (h : p.length < 2 ^ 32) :
    rawSlice (encRec p ++ r) = encRec p := by
  have h1 : readU32 (encRec p ++ r) = p.length := by
    rw [encRec, List.append_assoc, readU32_encodeU32_append]
    omega
  rw [rawSlice, h1, List.take_left' (by rw [length_encRec])]

/-- Decoding one record at the head of a well-formed region. -/
theorem sliceRaw_at_record (buf : Bytes) (wcur off endP : Nat) (p : Bytes) (ps : List Bytes)
    (hreg : seg buf off endP = encRecs (p :: ps))
    (hend : endP = off + (encRecs (p :: ps)).length)
    (hwcur : endP ≤ wcur) (hlen : wcur ≤ buf.length)
    (hwf : p.length < 2 ^ 32) :
    sliceRaw buf wcur off =
      (some p, if off + 4 + p.length ≥ wcur then 0 else off + 4 + p.length) := by
  have hoff : off < wcur := by
    have := length_encRecs_cons p ps
    omega
  have hoffe : off ≤ endP := by
    have := length_encRecs_cons p ps
    omega
  have hel : endP ≤ buf.length := by omega
  have hdrop : buf.drop off = encRec p ++ (encRecs ps ++ buf.drop endP) := by
    rw [drop_eq_seg_append buf off endP hoffe hel, hreg, encRecs_cons, List.append_assoc]
  have hread : readU32 (buf.drop off) = p.length := by
    rw [hdrop, encRec, List.append_assoc, readU32_encodeU32_append]
    omega
  have hsplit1 := seg_split buf off endP (encodeU32 p.length) (p ++ encRecs ps)
    (by rw [hreg, encRecs_cons, encRec, List.append_assoc])
    hoffe hel (by rw [length_encodeU32]; have := length_encRecs_cons p ps; omega)
  have hsplit2 := seg_split buf (off + (encodeU32 p.length).length) endP p (encRecs ps)
    hsplit1.2 (by rw [length_encodeU32]; have := length_encRecs_cons p ps; omega) hel
    (by rw [length_encodeU32]; have := length_encRecs_cons p ps; omega)
  have hpay : seg buf (off + 4) (off + 4 + p.length) = p := by
    have := hsplit2.1
    rw [length_encodeU32] at this
    exact this
  rw [sliceRaw]
  simp only [Nat.not_le.mpr hoff, if_neg (Nat.not_le.mpr hoff), ge_iff_le, hread]
  rw [hpay]
  simp

/-! ### Sorting algebra: insertion sort and tie-right merge -/

theorem ordInsert_perm {α : Type} (lt : α → α → Bool) (x : α) (xs : List α) :
    (ordInsert lt x xs).Perm (x :: xs) := by
  induction xs with
  | nil => simp [ordInsert]
  | cons y ys ih =>
    rw [ordInsert]
    by_cases h : lt y x = true
    · rw [if_pos h]
      exact (ih.cons y).trans (List.Perm.swap x y ys)
    · rw [if_neg h]

theorem insSort_perm {α : Type} (lt : α → α → Bool) (xs : List α) :
    (insSort lt xs).Perm xs := by
  induction xs with
  | nil => simp [insSort]
  | cons x xs ih =>
    rw [insSort]
    exact (ordInsert_perm lt x (insSort lt xs)).trans (ih.cons x)

theorem map_ordInsert {α β : Type} (f : α → β) (lt : β → β → Bool) (x : α) (xs : List α) :
    (ordInsert (fun a b => lt (f a) (f b)) x xs).map f = ordInsert lt (f x) (xs.map f) := by
  induction xs with
  | nil => simp [ordInsert]
  | cons y ys ih =>
    rw [List.map_cons, ordInsert, ordInsert]
    by_cases h : lt (f y) (f x) = true
    · rw [if_pos h, if_pos h, List.map_cons, ih]
    · rw [if_neg h, if_neg h]
      simp

theorem map_insSort {α β : Type} (f : α → β) (lt : β → β → Bool) (xs : List α) :
    (insSort (fun a b => lt (f a) (f b)) xs).map f = insSort lt (xs.map f) := by
  induction xs with
  | nil => simp [insSort]
  | cons x xs ih =>
    rw [insSort, List.map_cons, insSort, map_ordInsert, ih]

theorem ordInsert_pairwise {α : Type} (lt : α → α → Bool)
    (hasym : ∀ a b, lt a b = true → lt b a = false)
    (hneg : ∀ a b c, lt a b = false → lt b c = false → lt a c = false)
    (x : α) (xs : List α) (h : xs.Pairwise (fun a b => lt b a = false)) :
    (ordInsert lt x xs).Pairwise (fun a b => lt b a = false) := by
  induction xs with
  | nil => simp [ordInsert]
  | cons y ys ih =>
    rw [ordInsert]
    rcases List.pairwise_cons.mp h with ⟨hy, hys⟩
    by_cases hc : lt y x = true
    · rw [if_pos hc]
      refine List.pairwise_cons.mpr ⟨?_, ih hys⟩
      intro z hz
      have hz' := (ordInsert_perm lt x ys).mem_iff.mp hz
      rcases List.mem_cons.mp hz' with rfl | hzys
      · exact hasym _ _ hc
      · exact hy z hzys
    · rw [if_neg hc]
      refine List.pairwise_cons.mpr ⟨?_, h⟩
      intro z hz
      rcases List.mem_cons.mp hz with rfl | hzys
      · exact Bool.not_eq_true _ ▸ (by simpa using hc)
      · exact hneg z y x (hy z hzys) (by simpa using hc)

theorem insSort_pairwise {α : Type} (lt : α → α → Bool)
    (hasym : ∀ a b, lt a b = true → lt b a = false)
    (hneg : ∀ a b c, lt a b = false → lt b c = false → lt a c = false)
    (xs : List α) :
    (insSort lt xs).Pairwise (fun a b => lt b a = false) := by
  induction xs with
  | nil => simp [insSort]
  | cons x xs ih => exact ordInsert_pairwise lt hasym hneg x _ ih

theorem insSort_of_pairwise_lt {α : Type} (lt : α → α → Bool)
    (hasym : ∀ a b, lt a b = true → lt b a = false)
    (xs : List α) (h : xs.Pairwise (fun a b => lt a b = true)) :
    insSort lt xs = xs := by
  induction xs with
  | nil => rfl
  | cons x xs ih =>
    rcases List.pairwise_cons.mp h with ⟨hx, hxs⟩
    rw [insSort, ih hxs]
    cases xs with
    | nil => rfl
    | cons y ys =>
      rw [ordInsert, if_neg (by simp [hasym x y (hx y (by simp))])]

theorem mergeRecs_perm (less : LessFunc) (xs ys : List Bytes) :
    (mergeRecs less xs ys).Perm (xs ++ ys) := by
  induction xs generalizing ys with
  | nil => simp [mergeRecs]
  | cons x xs ihx =>
    induction ys with
    | nil => simp [mergeRecs]
    | cons y ys ihy =>
      rw [mergeRecs]
      by_cases h : less x y = true
      · rw [if_pos h]
        exact (ihx (y :: ys)).cons x
      · rw [if_neg h]
        exact (ihy.cons y).trans List.perm_middle.symm

theorem mergeRecs_pairwise (less : LessFunc)
    (hasym : ∀ a b, less a b = true → less b a = false)
    (hneg : ∀ a b c, less a b = false → less b c = false → less a c = false)
    (xs ys : List Bytes)
    (hx : xs.Pairwise (fun a b => less b a = false))
    (hy : ys.Pairwise (fun a b => less b a = false)) :
    (mergeRecs less xs ys).Pairwise (fun a b => less b a = false) := by
  induction xs generalizing ys with
  | nil => simpa [mergeRecs] using hy
  | cons x xs ihx =>
    induction ys with
    | nil => simpa [mergeRecs] using hx
    | cons y ys ihy =>
      rcases List.pairwise_cons.mp hx with ⟨hx1, hx2⟩
      rcases List.pairwise_cons.mp hy with ⟨hy1, hy2⟩
      rw [mergeRecs]
      by_cases h : less x y = true
      · rw [if_pos h]
        refine List.pairwise_cons.mpr ⟨?_, ihx (y :: ys) hx2 hy⟩
        intro z hz
        have := (mergeRecs_perm less xs (y :: ys)).mem_iff.mp hz
        rcases List.mem_append.mp this with hzx | hzy
        · exact hx1 z hzx
        · rcases List.mem_cons.mp hzy with rfl | hzys
          · exact hasym _ _ h
          · exact hneg z y x (hy1 z hzys) (hasym _ _ h)
      · rw [if_neg h]
        refine List.pairwise_cons.mpr ⟨?_, ihy hy2⟩
        intro z hz
        have := (mergeRecs_perm less (x :: xs) ys).mem_iff.mp hz
        have hxy : less x y = false := by simpa using h
        rcases List.mem_append.mp this with hzx | hzy
        · rcases List.mem_cons.mp hzx with rfl | hzxs
          · exact hxy
          · exact hneg z x y (hx1 z hzxs) hxy
        · exact hy1 z hzy

theorem mergeRecs_append_of_lt (less : LessFunc) (xs ys : List Bytes)
    (h : ∀ x ∈ xs, ∀ y ∈ ys, less x y = true) :
    mergeRecs less xs ys = xs ++ ys := by
  induction xs with
  | nil => simp [mergeRecs]
  | cons x xs ih =>
    cases ys with
    | nil => simp [mergeRecs]
    | cons y ys =>
      rw [mergeRecs, if_pos (h x (by simp) y (by simp))]
      rw [ih (fun a ha b hb => h a (by simp [ha]) b hb)]
      rfl

/-! ### Walk lemmas: decoding well-formed regions -/

/-- Reading every record of a well-formed region through `Slice`/`rawSlice`
recovers the abstract record list. -/
theorem recOffsets_reads (buf : Bytes) (wcur : Nat) (ps : List Bytes) :
    ∀ (start endP : Nat),
    seg buf start endP = encRecs ps →
    endP = start + (encRecs ps).length →
    endP ≤ wcur → wcur ≤ buf.length →
    (∀ p ∈ ps, p.length < 2 ^ 32) →
    (recOffsets start ps).map (payloadAt buf wcur) = ps ∧
    (recOffsets start ps).map (fun off => rawSlice (buf.drop off)) = ps.map encRec := by
  induction ps with
  | nil => intro start endP _ _ _ _ _; simp [recOffsets]
  | cons p ps ih =>
    intro start endP hreg hend hwcur hlen hwf
    have lenc := length_encRecs_cons p ps
    have hse : start ≤ endP := by omega
    have hel : endP ≤ buf.length := by omega
    have hsplit := seg_split buf start endP (encRec p) (encRecs ps)
      (by rw [hreg, encRecs_cons]) hse hel (by rw [length_encRec]; omega)
    have hreg' : seg buf (start + (4 + p.length)) endP = encRecs ps := by
      have := hsplit.2
      rwa [length_encRec] at this
    have hslice := sliceRaw_at_record buf wcur start endP p ps hreg hend hwcur hlen
      (hwf p (by simp))
    have hpay : payloadAt buf wcur start = p := by
      rw [payloadAt, hslice]
      rfl
    have hraw : rawSlice (buf.drop start) = encRec p := by
      have hdrop : buf.drop start = encRec p ++ (encRecs ps ++ buf.drop endP) := by
        rw [drop_eq_seg_append buf start endP hse hel, hreg, encRecs_cons, List.append_assoc]
      rw [hdrop, rawSlice_encRec_append p _ (hwf p (by simp))]
    have ihr := ih (start + (4 + p.length)) endP hreg' (by omega) hwcur hlen
      (fun q hq => hwf q (by simp [hq]))
    refine ⟨?_, ?_⟩
    · rw [recOffsets, List.map_cons, hpay, ihr.1]
    · rw [recOffsets, List.map_cons, hraw, ihr.2, List.map_cons]

theorem collectSmall_zero (buf : Bytes) (wcur endP fuel : Nat) :
    collectSmall buf wcur endP fuel 0 = [] := by
  cases fuel with
  | zero => rfl
  | succ f => simp [collectSmall]

/-- The offset-collection loop of `sortSmall` visits exactly the record
start offsets of a well-formed region. -/
theorem collectSmall_spec (buf : Bytes) (wcur : Nat) (ps : List Bytes) :
    ∀ (start endP fuel : Nat),
    seg buf start endP = encRecs ps →
    endP = start + (encRecs ps).length →
    endP ≤ wcur → wcur ≤ buf.length →
    (∀ p ∈ ps, p.length < 2 ^ 32) →
    1 ≤ start → ps.length ≤ fuel →
    collectSmall buf wcur endP fuel start = recOffsets start ps := by
  induction ps with
  | nil =>
    intro start endP fuel _ hend _ _ _ _ _
    have hes : endP = start := by simpa [encRecs_nil] using hend
    cases fuel with
    | zero => rfl
    | succ f =>
      rw [collectSmall, if_neg (by omega)]
      rfl
  | cons p ps ih =>
    intro start endP fuel hreg hend hwcur hlen hwf h1 hfuel
    have lenc := length_encRecs_cons p ps
    have hse : start ≤ endP := by omega
    have hel : endP ≤ buf.length := by omega
    have hsplit := seg_split buf start endP (encRec p) (encRecs ps)
      (by rw [hreg, encRecs_cons]) hse hel (by rw [length_encRec]; omega)
    have hreg' : seg buf (start + (4 + p.length)) endP = encRecs ps := by
      have := hsplit.2
      rwa [length_encRec] at this
    have hslice := sliceRaw_at_record buf wcur start endP p ps hreg hend hwcur hlen
      (hwf p (by simp))
    obtain ⟨f, rfl⟩ : ∃ f, fuel = f + 1 := by
      cases fuel with
      | zero => simp at hfuel
      | succ f => exact ⟨f, rfl⟩
    rw [collectSmall, if_pos (by constructor <;> omega)]
    rw [recOffsets]
    congr 1
    rw [hslice]
    by_cases hnx : start + 4 + p.length ≥ wcur
    · have hpse : (encRecs ps).length = 0 := by omega
      have hps : ps = [] := (encRecs_eq_nil_iff ps).mp (List.eq_nil_of_length_eq_zero hpse)
      subst hps
      simp only [if_pos hnx]
      rw [collectSmall_zero]
      rfl
    · simp only [if_neg hnx]
      have : start + 4 + p.length = start + (4 + p.length) := by omega
      rw [this]
      exact ih (start + (4 + p.length)) endP f hreg' (by omega) hwcur hlen
        (fun q hq => hwf q (by simp [hq])) (by omega)
        (by simp only [List.length_cons] at hfuel; omega)

theorem walkOffsets_zero (buf : Bytes) (wcur endP fuel count : Nat) :
    walkOffsets buf wcur endP fuel 0 count = [] := by
  cases fuel with
  | zero => rfl
  | succ f => simp [walkOffsets]

/-- The chunk-boundary walk of `SortSliceBetween` collects exactly the
1024-spaced record offsets of a well-formed region. -/
theorem walkOffsets_spec (buf : Bytes) (wcur : Nat) (ps : List Bytes) :
    ∀ (start endP fuel count : Nat),
    seg buf start endP = encRecs ps →
    endP = start + (encRecs ps).length →
    endP ≤ wcur → wcur ≤ buf.length →
    (∀ p ∈ ps, p.length < 2 ^ 32) →
    1 ≤ start → ps.length ≤ fuel →
    walkOffsets buf wcur endP fuel start count = chunkMarks count start ps := by
  induction ps with
  | nil =>
    intro start endP fuel count _ hend _ _ _ _ _
    have hes : endP = start := by simpa [encRecs_nil] using hend
    cases fuel with
    | zero => rfl
    | succ f =>
      rw [walkOffsets, if_neg (by omega)]
      rfl
  | cons p ps ih =>
    intro start endP fuel count hreg hend hwcur hlen hwf h1 hfuel
    have lenc := length_encRecs_cons p ps
    have hse : start ≤ endP := by omega
    have hel : endP ≤ buf.length := by omega
    have hsplit := seg_split buf start endP (encRec p) (encRecs ps)
      (by rw [hreg, encRecs_cons]) hse hel (by rw [length_encRec]; omega)
    have hreg' : seg buf (start + (4 + p.length)) endP = encRecs ps := by
      have := hsplit.2
      rwa [length_encRec] at this
    have hslice := sliceRaw_at_record buf wcur start endP p ps hreg hend hwcur hlen
      (hwf p (by simp))
    obtain ⟨f, rfl⟩ : ∃ f, fuel = f + 1 := by
      cases fuel with
      | zero => simp at hfuel
      | succ f => exact ⟨f, rfl⟩
    rw [walkOffsets, if_pos (by constructor <;> omega), chunkMarks]
    congr 1
    rw [hslice]
    by_cases hnx : start + 4 + p.length ≥ wcur
    · have hpse : (encRecs ps).length = 0 := by omega
      have hps : ps = [] := (encRecs_eq_nil_iff ps).mp (List.eq_nil_of_length_eq_zero hpse)
      subst hps
      simp only [if_pos hnx]
      rw [walkOffsets_zero]
      rfl
    · simp only [if_neg hnx]
      have harith : start + 4 + p.length = start + (4 + p.length) := by omega
      rw [harith]
      exact ih (start + (4 + p.length)) endP f (count + 1) hreg' (by omega) hwcur hlen
        (fun q hq => hwf q (by simp [hq])) (by omega)
        (by simp only [List.length_cons] at hfuel; omega)

/-! ### Chunk structure lemmas -/

theorem chunkMarks_append (count start : Nat) (xs ys : List Bytes) :
    chunkMarks count start (xs ++ ys) =
      chunkMarks count start xs ++
        chunkMarks (count + xs.length) (start + (encRecs xs).length) ys := by
  induction xs generalizing count start with
  | nil => simp [chunkMarks, encRecs_nil]
  | cons p xs ih =>
    rw [List.cons_append, chunkMarks, chunkMarks, ih, length_encRecs_cons]
    simp only [List.append_assoc, List.length_cons]
    have h1 : count + 1 + xs.length = count + (xs.length + 1) := by omega
    have h2 : start + (4 + p.length) + (encRecs xs).length =
        start + (4 + p.length + (encRecs xs).length) := by omega
    rw [h1, h2]

theorem chunkMarks_of_lt_1024 (ps : List Bytes) :
    ∀ (count start : Nat), 1 ≤ count → count + ps.length ≤ 1024 →
    chunkMarks count start ps = [] := by
  induction ps with
  | nil => intro count start _ _; rfl
  | cons p ps ih =>
    intro count start h1 h2
    simp only [List.length_cons] at h2
    rw [chunkMarks, if_neg (by omega), List.nil_append]
    exact ih (count + 1) (start + (4 + p.length)) (by omega) (by omega)

theorem chunkMarks_mod (ps : List Bytes) :
    ∀ (count start : Nat),
    chunkMarks (count + 1024) start ps = chunkMarks count start ps := by
  induction ps with
  | nil => intro count start; rfl
  | cons p ps ih =>
    intro count start
    rw [chunkMarks, chunkMarks]
    have hmod : (count + 1024) % 1024 = count % 1024 := by omega
    rw [hmod]
    have harith : count + 1024 + 1 = count + 1 + 1024 := by omega
    rw [harith, ih]

theorem chunkMarks_mem_lt (ps : List Bytes) :
    ∀ (count start x : Nat), x ∈ chunkMarks count start ps →
    x < start + (encRecs ps).length := by
  induction ps with
  | nil => intro count start x h; simp [chunkMarks] at h
  | cons p ps ih =>
    intro count start x h
    have lenc := length_encRecs_cons p ps
    rw [chunkMarks] at h
    rcases List.mem_append.mp h with h1 | h2
    · have : x = start := by
        by_cases hc : count % 1024 = 0
        · simpa [hc] using h1
        · simp [hc] at h1
      omega
    · have := ih (count + 1) (start + (4 + p.length)) x h2
      omega

theorem chunkMarks_head (p : Bytes) (ps : List Bytes) (start : Nat) :
    chunkMarks 0 start (p :: ps) =
      start :: chunkMarks 1 (start + (4 + p.length)) ps := by
  rw [chunkMarks]
  simp

/-- The boundary marks of a nonempty record list, with the end offset
appended, are exactly the chunk bounds of its 1024-chunking. -/
theorem chunkMarks_eq_chunkBounds_aux (n : Nat) :
    ∀ (ps : List Bytes), ps.length ≤ n → ps ≠ [] → ∀ (start : Nat),
    chunkMarks 0 start ps ++ [start + (encRecs ps).length] =
      chunkBounds start (chunks1024 ps) := by
  induction n using Nat.strong_induction_on with
  | _ n ih =>
    intro ps hlen hne start
    rw [chunks1024, dif_neg hne]
    obtain ⟨p, ps', rfl⟩ : ∃ p ps', ps = p :: ps' := by
      cases ps with
      | nil => simp at hne
      | cons a l => exact ⟨a, l, rfl⟩
    have htd : p :: ps' = (p :: ps').take 1024 ++ (p :: ps').drop 1024 :=
      (List.take_append_drop 1024 (p :: ps')).symm
    rw [chunkBounds]
    by_cases hsmall : (p :: ps').length ≤ 1024
    · have hdrop : (p :: ps').drop 1024 = [] := by
        refine List.eq_nil_of_length_eq_zero ?_
        simp only [List.length_drop]
        omega
      have htake : (p :: ps').take 1024 = p :: ps' := List.take_of_length_le (by omega)
      rw [hdrop, htake, chunks1024, dif_pos rfl, chunkBounds]
      rw [chunkMarks_head]
      rw [chunkMarks_of_lt_1024 ps' 1 _ (by omega) (by simp at hsmall; omega)]
      simp
    · have hlt : ((p :: ps').drop 1024).length < n := by
        simp only [List.length_drop, List.length_cons]
        simp only [List.length_cons] at hlen
        omega
      have hdne : (p :: ps').drop 1024 ≠ [] := by
        refine fun hcon => hsmall ?_
        have := congrArg List.length hcon
        simp only [List.length_drop, List.length_cons, List.length_nil] at this
        simp only [List.length_cons]
        omega
      conv_lhs => rw [htd]
      rw [chunkMarks_append]
      have htl : ((p :: ps').take 1024).length = 1024 := by
        simp only [List.length_take]
        omega
      have hmarks1 : chunkMarks 0 start ((p :: ps').take 1024) = [start] := by
        have htc : (p :: ps').take 1024 = p :: ps'.take 1023 := by
          rw [List.take_cons (by omega)]
        rw [htc, chunkMarks_head]
        rw [chunkMarks_of_lt_1024 _ 1 _ (by omega) (by simp; omega)]
      rw [hmarks1, htl]
      have hmod : chunkMarks (0 + 1024) (start + (encRecs ((p :: ps').take 1024)).length)
          ((p :: ps').drop 1024) =
          chunkMarks 0 (start + (encRecs ((p :: ps').take 1024)).length)
            ((p :: ps').drop 1024) := chunkMarks_mod _ 0 _
      rw [hmod]
      have hihr := ih _ hlt ((p :: ps').drop 1024) (Nat.le_refl _) hdne
        (start + (encRecs ((p :: ps').take 1024)).length)
      simp only [List.singleton_append, List.cons_append, List.nil_append]
      rw [encRecs_append, List.length_append, ← Nat.add_assoc, hihr]

/-- The boundary marks of a nonempty record list, with the end offset
appended, are exactly the chunk bounds of its 1024-chunking. -/
theorem chunkMarks_eq_chunkBounds (ps : List Bytes) (hne : ps ≠ []) (start : Nat) :
    chunkMarks 0 start ps ++ [start + (encRecs ps).length] =
      chunkBounds start (chunks1024 ps) :=
  chunkMarks_eq_chunkBounds_aux ps.length ps (Nat.le_refl _) hne start

/-! ### Refinement: sortSmall -/

/-- `sortSmall` rewrites a well-formed chunk with the encoding of its
insertion-sorted record list, leaving everything else untouched. -/
theorem sortSmall_spec (less : LessFunc) (buf : Bytes) (wcur start endP : Nat)
    (c : List Bytes)
    (hreg : seg buf start endP = encRecs c)
    (hend : endP = start + (encRecs c).length)
    (h1 : 1 ≤ start) (hwcur : endP ≤ wcur) (hlen : wcur ≤ buf.length)
    (hwf : ∀ p ∈ c, p.length < 2 ^ 32) :
    sortSmall less wcur buf start endP =
      bufReplace buf start endP (encRecs (insSort less c)) := by
  have hreads := recOffsets_reads buf wcur c start endP hreg hend hwcur hlen hwf
  have hclen := length_encRecs_le c
  have hcol : collectSmall buf wcur endP endP start = recOffsets start c :=
    collectSmall_spec buf wcur c start endP endP hreg hend hwcur hlen hwf h1 (by omega)
  have hlam : (fun off => encRec (payloadAt buf wcur off)) =
      encRec ∘ (payloadAt buf wcur) := rfl
  have hmap : (insSort (fun i j => less (payloadAt buf wcur i) (payloadAt buf wcur j))
      (recOffsets start c)).map (payloadAt buf wcur) = insSort less c := by
    rw [map_insSort, hreads.1]
  have hmem : ∀ off ∈ insSort (fun i j => less (payloadAt buf wcur i) (payloadAt buf wcur j))
      (recOffsets start c),
      rawSlice (buf.drop off) = encRec (payloadAt buf wcur off) := by
    have hcomb : (recOffsets start c).map (fun off => rawSlice (buf.drop off)) =
        (recOffsets start c).map (fun off => encRec (payloadAt buf wcur off)) := by
      rw [hreads.2, hlam, ← List.map_map, hreads.1]
    have hpt : ∀ off ∈ recOffsets start c,
        rawSlice (buf.drop off) = encRec (payloadAt buf wcur off) :=
      fun off hoff => List.map_eq_map_iff.mp hcomb off hoff
    intro off hoff
    exact hpt off ((insSort_perm _ _).mem_iff.mp hoff)
  have htmp : ((insSort (fun i j => less (payloadAt buf wcur i) (payloadAt buf wcur j))
      (recOffsets start c)).map (fun off => rawSlice (buf.drop off))).flatten =
      encRecs (insSort less c) := by
    rw [List.map_congr_left hmem, hlam, ← List.map_map, hmap]
    rfl
  rw [sortSmall, hcol, htmp]
  have hperm : (insSort less c).Perm c := insSort_perm less c
  have hlenT : (encRecs (insSort less c)).length = endP - start := by
    rw [length_encRecs_perm hperm]
    omega
  rw [copyRange, List.take_of_length_le (by omega)]
  rw [copyInto_eq_bufReplace _ _ _ (by omega)]
  congr 1
  omega

theorem bufReplace_nil (l : Bytes) (a : Nat) : bufReplace l a a [] = l := by
  simp [bufReplace]

theorem chunkBounds_shape (s : Nat) (cs : List (List Bytes)) :
    ∃ t, chunkBounds s cs = s :: t := by
  cases cs with
  | nil => exact ⟨[], rfl⟩
  | cons c cs => exact ⟨_, rfl⟩

/-- The chunk-sort pass rewrites the whole span with the concatenation of
the per-chunk sorted encodings. -/
theorem sortSmallChain_spec (less : LessFunc) (wcur : Nat) :
    ∀ (cs : List (List Bytes)) (buf : Bytes) (start : Nat),
    seg buf start (start + (encRecs cs.flatten).length) = encRecs cs.flatten →
    1 ≤ start →
    start + (encRecs cs.flatten).length ≤ wcur →
    wcur ≤ buf.length →
    (∀ p ∈ cs.flatten, p.length < 2 ^ 32) →
    sortSmallChain less wcur buf start ((chunkBounds start cs).tail) =
      bufReplace buf start (start + (encRecs cs.flatten).length)
        (encRecs ((cs.map (insSort less)).flatten)) := by
  intro cs
  induction cs with
  | nil =>
    intro buf start _ _ _ _ _
    simp [chunkBounds, sortSmallChain, encRecs_nil, bufReplace_nil]
  | cons c cs ih =>
    intro buf start hreg h1 hwcur hlen hwf
    have hflat : (c :: cs).flatten = c ++ cs.flatten := rfl
    have hlsum : (encRecs (c :: cs).flatten).length =
        (encRecs c).length + (encRecs cs.flatten).length := by
      rw [hflat, encRecs_append, List.length_append]
    obtain ⟨t, ht⟩ := chunkBounds_shape (start + (encRecs c).length) cs
    have hsplit := seg_split buf start (start + (encRecs (c :: cs).flatten).length)
      (encRecs c) (encRecs cs.flatten)
      (by rw [hreg, hflat, encRecs_append]) (by omega) (by omega) (by omega)
    have hchunk := sortSmall_spec less buf wcur start (start + (encRecs c).length) c
      hsplit.1 rfl h1 (by omega) hlen (fun p hp => hwf p (by rw [hflat]; exact List.mem_append_left _ hp))
    have hperm : (insSort less c).Perm c := insSort_perm less c
    have hxlen : (encRecs (insSort less c)).length = (encRecs c).length :=
      length_encRecs_perm hperm
    have hb1reg : seg (bufReplace buf start (start + (encRecs c).length) (encRecs (insSort less c)))
        (start + (encRecs c).length)
        (start + (encRecs c).length + (encRecs cs.flatten).length) =
        encRecs cs.flatten := by
      rw [seg_bufReplace_right buf start (start + (encRecs c).length) _ _ _
        (by omega) (by omega) (by omega) (by omega)]
      have := hsplit.2
      have harith : start + (encRecs c).length + (encRecs cs.flatten).length =
          start + (encRecs (c :: cs).flatten).length := by omega
      rw [harith]
      exact this
    have hb1len : (bufReplace buf start (start + (encRecs c).length)
        (encRecs (insSort less c))).length = buf.length :=
      length_bufReplace _ _ _ _ (by omega) (by omega) (by omega)
    have hihr := ih (bufReplace buf start (start + (encRecs c).length) (encRecs (insSort less c)))
      (start + (encRecs c).length) hb1reg (by omega) (by omega) (by omega)
      (fun p hp => hwf p (by rw [hflat]; exact List.mem_append_right _ hp))
    have ht2 : (chunkBounds (start + (encRecs c).length) cs).tail = t := by
      rw [ht]
      rfl
    rw [chunkBounds, List.tail_cons, ht, sortSmallChain, hchunk, ← ht2, hihr]
    rw [bufReplace_adjacent buf start (start + (encRecs c).length) _ _ _
      (by omega) (by omega) (by omega) (by omega)]
    have harith2 : start + (encRecs c).length + (encRecs cs.flatten).length =
        start + (encRecs (c :: cs).flatten).length := by omega
    rw [harith2]
    congr 1
    rw [List.map_cons, List.flatten_cons, encRecs_append]

/-! ### Refinement: the merge loop -/

theorem encRec_drop4 (p : Bytes) : (encRec p).drop 4 = p := by
  rw [encRec]
  exact List.drop_left' (length_encodeU32 p.length)

theorem encRec_length_pos (p : Bytes) : 0 < (encRec p).length := by
  rw [length_encRec]
  omega

/-- The merge loop writes `[start, hoff)` with the encoding of the abstract
tie-right merge, provided the scratch copy `left` holds `encRecs xs`, the
live right view `[rpos, hoff)` holds `encRecs ys`, and the destination
cursor sits exactly `|encRecs xs|` bytes before `rpos`. -/
theorem mergeLoop_spec (less : LessFunc) :
    ∀ (fuel : Nat) (xs ys : List Bytes) (buf : Bytes) (rpos hoff start : Nat),
    seg buf rpos hoff = encRecs ys →
    start + (encRecs xs).length = rpos →
    hoff = rpos + (encRecs ys).length →
    hoff ≤ buf.length →
    (∀ p ∈ xs, p.length < 2 ^ 32) →
    (∀ p ∈ ys, p.length < 2 ^ 32) →
    hoff - start ≤ fuel →
    mergeLoop less fuel buf (encRecs xs) rpos hoff start hoff =
      bufReplace buf start hoff (encRecs (mergeRecs less xs ys)) := by
  intro fuel
  induction fuel with
  | zero =>
    intro xs ys buf rpos hoff start hreg hrx hry hlen hwx hwy hfuel
    have hx0 : (encRecs xs).length = 0 := by omega
    have hy0 : (encRecs ys).length = 0 := by omega
    have hxe : xs = [] := (encRecs_eq_nil_iff xs).mp (List.eq_nil_of_length_eq_zero hx0)
    have hye : ys = [] := (encRecs_eq_nil_iff ys).mp (List.eq_nil_of_length_eq_zero hy0)
    subst hxe hye
    rw [mergeLoop]
    have : start = hoff := by omega
    rw [this, mergeRecs, encRecs_nil, bufReplace_nil]
  | succ fuel ih =>
    intro xs ys buf rpos hoff start hreg hrx hry hlen hwx hwy hfuel
    rw [mergeLoop]
    by_cases hcond : start < hoff
    swap
    · rw [if_neg hcond]
      have hx0 : (encRecs xs).length = 0 := by omega
      have hy0 : (encRecs ys).length = 0 := by omega
      have hxe : xs = [] := (encRecs_eq_nil_iff xs).mp (List.eq_nil_of_length_eq_zero hx0)
      have hye : ys = [] := (encRecs_eq_nil_iff ys).mp (List.eq_nil_of_length_eq_zero hy0)
      subst hxe hye
      have : start = hoff := by omega
      rw [this, mergeRecs, encRecs_nil, bufReplace_nil]
    rw [if_pos hcond]
    cases xs with
    | nil =>
      rw [if_pos (by simp [encRecs_nil])]
      rw [hreg, copyRange]
      have h0 : start = rpos := by
        simpa [encRecs_nil] using hrx
      have hylen : (encRecs ys).length = hoff - start := by omega
      rw [List.take_of_length_le (by omega), copyInto_eq_bufReplace _ _ _ (by omega)]
      rw [mergeRecs]
      congr 1
      omega
    | cons x xs' =>
      rw [if_neg (by rw [length_encRecs_cons]; omega)]
      cases ys with
      | nil =>
        have hry0 : hoff - rpos = 0 := by
          simp [encRecs_nil] at hry
          omega
        rw [if_pos hry0, copyRange]
        have hxlen : (encRecs (x :: xs')).length = hoff - start := by omega
        rw [List.take_of_length_le (by omega), copyInto_eq_bufReplace _ _ _ (by omega)]
        rw [mergeRecs]
        congr 1
        omega
      | cons y ys' =>
        have hlycons := length_encRecs_cons y ys'
        have hlxcons := length_encRecs_cons x xs'
        rw [if_neg (by omega)]
        have hls : rawSlice (encRecs (x :: xs')) = encRec x := by
          rw [encRecs_cons]
          exact rawSlice_encRec_append x _ (hwx x (by simp))
        have hrs : rawSlice (seg buf rpos hoff) = encRec y := by
          rw [hreg, encRecs_cons]
          exact rawSlice_encRec_append y _ (hwy y (by simp))
        have hdropx : (encRecs (x :: xs')).drop (encRec x).length = encRecs xs' := by
          rw [encRecs_cons]
          exact List.drop_left' rfl
        have hysplit := seg_split buf rpos hoff (encRec y) (encRecs ys')
          (by rw [hreg, encRecs_cons]) (by omega) hlen
          (by rw [length_encRec]; omega)
        simp only [hls, hrs, encRec_drop4, hdropx]
        by_cases hc : less x y = true
        · rw [if_pos hc]
          have hbx : copyInto buf start (encRec x) =
              bufReplace buf start (start + (encRec x).length) (encRec x) :=
            copyInto_eq_bufReplace _ _ _ (by rw [length_encRec]; omega)
          have hfr : seg (bufReplace buf start (start + (encRec x).length) (encRec x))
              rpos hoff = encRecs (y :: ys') := by
            rw [seg_bufReplace_right buf start (start + (encRec x).length) _ _ _
              (by omega) (by rw [length_encRec]; omega) (by omega)
              (by rw [length_encRec]; omega)]
            exact hreg
          have hihr := ih xs' (y :: ys')
            (bufReplace buf start (start + (encRec x).length) (encRec x))
            rpos hoff (start + (encRec x).length) hfr
            (by rw [length_encRec]; omega) hry
            (by rw [length_bufReplace _ _ _ _ (by omega) (by rw [length_encRec]; omega) (by omega)]; omega)
            (fun p hp => hwx p (by simp [hp])) hwy
            (by have := encRec_length_pos x; omega)
          rw [hbx, hihr]
          rw [bufReplace_adjacent buf start (start + (encRec x).length) hoff _ _
            (by omega) (by rw [length_encRec]; omega) hlen (by omega)]
          rw [mergeRecs, if_pos hc, encRecs_cons]
        · rw [if_neg hc]
          have hby : copyInto buf start (encRec y) =
              bufReplace buf start (start + (encRec y).length) (encRec y) :=
            copyInto_eq_bufReplace _ _ _ (by rw [length_encRec]; omega)
          have hfr : seg (bufReplace buf start (start + (encRec y).length) (encRec y))
              (rpos + (encRec y).length) hoff = encRecs ys' := by
            rw [seg_bufReplace_right buf start (start + (encRec y).length) _ _ _
              (by omega) (by rw [length_encRec]; omega) (by omega)
              (by rw [length_encRec]; omega)]
            exact hysplit.2
          have hihr := ih (x :: xs') ys'
            (bufReplace buf start (start + (encRec y).length) (encRec y))
            (rpos + (encRec y).length) hoff (start + (encRec y).length) hfr
            (by rw [length_encRec] at *; omega)
            (by rw [length_encRec] at *; omega)
            (by rw [length_bufReplace _ _ _ _ (by omega) (by rw [length_encRec]; omega) (by omega)]; omega)
            hwx (fun p hp => hwy p (by simp [hp]))
            (by have := encRec_length_pos y; omega)
          rw [hby, hihr]
          rw [bufReplace_adjacent buf start (start + (encRec y).length) hoff _ _
            (by omega) (by rw [length_encRec]; omega) hlen (by omega)]
          rw [mergeRecs, if_neg hc, encRecs_cons]

/-- `sortHelper.merge` on adjacent well-formed views `[loff, moff)` and
`[moff, hoff)` rewrites `[loff, hoff)` with the abstract merge. -/
theorem mergeInPlace_spec (less : LessFunc) (buf : Bytes) (loff moff hoff : Nat)
    (xs ys : List Bytes)
    (hregx : seg buf loff moff = encRecs xs)
    (hregy : seg buf moff hoff = encRecs ys)
    (hmx : moff = loff + (encRecs xs).length)
    (hhy : hoff = moff + (encRecs ys).length)
    (hlen : hoff ≤ buf.length)
    (hwx : ∀ p ∈ xs, p.length < 2 ^ 32)
    (hwy : ∀ p ∈ ys, p.length < 2 ^ 32) :
    mergeInPlace less buf loff moff hoff =
      bufReplace buf loff hoff (encRecs (mergeRecs less xs ys)) := by
  have hlx : (seg buf loff moff).length = (encRecs xs).length := by rw [hregx]
  have hly : (seg buf moff hoff).length = (encRecs ys).length := by rw [hregy]
  rw [mergeInPlace]
  by_cases hx0 : (encRecs xs).length = 0
  · have hxe : xs = [] := (encRecs_eq_nil_iff xs).mp (List.eq_nil_of_length_eq_zero hx0)
    subst hxe
    rw [if_pos (Or.inl (by omega))]
    rw [mergeRecs]
    have hlm : loff = moff := by omega
    subst hlm
    rw [← hregy, bufReplace_seg buf loff hoff (by omega) hlen]
  by_cases hy0 : (encRecs ys).length = 0
  · have hye : ys = [] := (encRecs_eq_nil_iff ys).mp (List.eq_nil_of_length_eq_zero hy0)
    subst hye
    rw [if_pos (Or.inr (by omega))]
    have hme : moff = hoff := by omega
    subst hme
    have hmm : mergeRecs less xs [] = xs := by
      cases xs with
      | nil => rw [mergeRecs]
      | cons a l => rw [mergeRecs]
    rw [hmm, ← hregx, bufReplace_seg buf loff moff (by omega) hlen]
  · rw [if_neg (by omega)]
    rw [hregx]
    exact mergeLoop_spec less (hoff - loff) xs ys buf moff hoff loff hregy
      (by omega) (by omega) hlen hwx hwy (by omega)

/-- Boundary offsets are monotone along the step hypothesis. -/
theorem offsets_mono (offsets : List Nat) (gs : Nat → List Bytes) (lo hi : Nat)
    (hstep : ∀ i, lo ≤ i → i < hi →
      offsets.getD (i + 1) 0 = offsets.getD i 0 + (encRecs (gs i)).length) :
    ∀ a b, lo ≤ a → a ≤ b → b ≤ hi →
      offsets.getD a 0 ≤ offsets.getD b 0 := by
  intro a b ha hab hbh
  induction b, hab using Nat.le_induction with
  | base => exact Nat.le_refl _
  | succ n hn ihn =>
    have h1 := hstep n (by omega) (by omega)
    have h2 := ihn (by omega)
    omega

/-- The encoded length of the hierarchical merge of a boundary range is the
byte distance between its end offsets. -/
theorem treeSortF_encLen (less : LessFunc) (offsets : List Nat) (gs : Nat → List Bytes) :
    ∀ (d lo hi : Nat), hi - lo ≤ d → lo ≤ hi →
    (∀ i, lo ≤ i → i < hi →
      offsets.getD (i + 1) 0 = offsets.getD i 0 + (encRecs (gs i)).length) →
    (encRecs (treeSortF less gs lo hi)).length =
      offsets.getD hi 0 - offsets.getD lo 0 := by
  intro d
  induction d with
  | zero =>
    intro lo hi hd hlh _
    have : lo = hi := by omega
    subst this
    rw [treeSortF]
    simp [encRecs_nil]
  | succ d ih =>
    intro lo hi hd hlh hstep
    rw [treeSortF]
    by_cases hbase : lo = lo + (hi - lo) / 2
    · rw [dif_pos hbase]
      by_cases hhi : hi ≤ lo
      · rw [if_pos hhi]
        have : lo = hi := by omega
        subst this
        simp [encRecs_nil]
      · rw [if_neg hhi]
        have hone : hi = lo + 1 := by omega
        subst hone
        rw [hstep lo (Nat.le_refl _) (by omega)]
        omega
    · rw [dif_neg hbase]
      have hmid1 : lo < lo + (hi - lo) / 2 := by omega
      have hmid2 : lo + (hi - lo) / 2 ≤ hi := by omega
      have hperm := mergeRecs_perm less (treeSortF less gs lo (lo + (hi - lo) / 2))
        (treeSortF less gs (lo + (hi - lo) / 2) hi)
      rw [length_encRecs_perm hperm, encRecs_append, List.length_append]
      have hL := ih lo (lo + (hi - lo) / 2) (by omega) (by omega)
        (fun i h1 h2 => hstep i h1 (by omega))
      have hR := ih (lo + (hi - lo) / 2) hi (by omega) (by omega)
        (fun i h1 h2 => hstep i (by omega) h2)
      have hm1 := offsets_mono offsets gs lo hi hstep lo (lo + (hi - lo) / 2)
        (Nat.le_refl _) (by omega) (by omega)
      have hm2 := offsets_mono offsets gs lo hi hstep (lo + (hi - lo) / 2) hi
        (by omega) (by omega) (Nat.le_refl _)
      omega

theorem take_bufReplace_le (l : Bytes) (i j a : Nat) (x : Bytes)
    (ha : a ≤ i) (hi : i ≤ l.length) :
    (bufReplace l i j x).take a = l.take a := by
  have h1 := take_bufReplace l i j x hi
  calc (bufReplace l i j x).take a = ((bufReplace l i j x).take i).take a := by
        rw [List.take_take]
        congr 1
        omega
    _ = (l.take i).take a := by rw [h1]
    _ = l.take a := by
        rw [List.take_take]
        congr 1
        omega

theorem drop_bufReplace_ge (l : Bytes) (i j a : Nat) (x : Bytes)
    (h1 : i ≤ j) (h2 : j ≤ l.length) (h3 : x.length = j - i) (ha : j ≤ a) :
    (bufReplace l i j x).drop a = l.drop a := by
  have hj := drop_bufReplace l i j x h1 h2 h3
  have : a = j + (a - j) := by omega
  rw [this, ← List.drop_drop, ← List.drop_drop, hj]

/-- Every record of the hierarchical merge comes from one of the merged
boundary ranges. -/
theorem mem_treeSortF (less : LessFunc) (gs : Nat → List Bytes) :
    ∀ (d lo hi : Nat), hi - lo ≤ d →
    ∀ p ∈ treeSortF less gs lo hi, ∃ i, lo ≤ i ∧ i < hi ∧ p ∈ gs i := by
  intro d
  induction d with
  | zero =>
    intro lo hi hd p hp
    rw [treeSortF] at hp
    rcases Nat.lt_or_ge lo hi with h | h
    · omega
    · have : lo = lo + (hi - lo) / 2 := by omega
      rw [dif_pos this, if_pos (by omega)] at hp
      simp at hp
  | succ d ih =>
    intro lo hi hd p hp
    rw [treeSortF] at hp
    by_cases hb : lo = lo + (hi - lo) / 2
    · rw [dif_pos hb] at hp
      by_cases hhi : hi ≤ lo
      · rw [if_pos hhi] at hp
        simp at hp
      · rw [if_neg hhi] at hp
        exact ⟨lo, Nat.le_refl _, by omega, hp⟩
    · rw [dif_neg hb] at hp
      have hmem := (mergeRecs_perm less _ _).mem_iff.mp hp
      rcases List.mem_append.mp hmem with hL | hR
      · obtain ⟨i, h1, h2, h3⟩ := ih lo (lo + (hi - lo) / 2) (by omega) p hL
        exact ⟨i, h1, by omega, h3⟩
      · obtain ⟨i, h1, h2, h3⟩ := ih (lo + (hi - lo) / 2) hi (by omega) p hR
        exact ⟨i, by omega, h2, h3⟩

/-- `sortHelper.sort` rewrites `[offsets[lo], offsets[hi])` with the
encoding of the abstract hierarchical merge of its chunks, given that every
chunk `[offsets[i], offsets[i+1])` of the range holds `encRecs (gs i)`. -/
theorem sortRec_spec (less : LessFunc) (offsets : List Nat) (gs : Nat → List Bytes) :
    ∀ (d lo hi : Nat) (buf : Bytes), hi - lo ≤ d → lo ≤ hi →
    (∀ i, lo ≤ i → i < hi →
      offsets.getD (i + 1) 0 = offsets.getD i 0 + (encRecs (gs i)).length) →
    (∀ i, lo ≤ i → i < hi →
      seg buf (offsets.getD i 0) (offsets.getD (i + 1) 0) = encRecs (gs i)) →
    (∀ i, lo ≤ i → i < hi → ∀ p ∈ gs i, p.length < 2 ^ 32) →
    offsets.getD hi 0 ≤ buf.length →
    sortRec less offsets buf lo hi =
      bufReplace buf (offsets.getD lo 0) (offsets.getD hi 0)
        (encRecs (treeSortF less gs lo hi)) := by
  intro d
  induction d with
  | zero =>
    intro lo hi buf hd hlh _ _ _ _
    have : lo = hi := by omega
    subst this
    rw [sortRec, dif_pos (by omega), treeSortF, dif_pos (by omega), if_pos (by omega)]
    rw [encRecs_nil, bufReplace_nil]
  | succ d ih =>
    intro lo hi buf hd hlh hstep hreg hwf hlen
    rw [sortRec, treeSortF]
    by_cases hb : lo = lo + (hi - lo) / 2
    · rw [dif_pos hb, dif_pos hb]
      by_cases hhi : hi ≤ lo
      · rw [if_pos hhi]
        have : lo = hi := by omega
        subst this
        rw [encRecs_nil, bufReplace_nil]
      · rw [if_neg hhi]
        have hone : hi = lo + 1 := by omega
        have hr := hreg lo (Nat.le_refl _) (by omega)
        have hs := hstep lo (Nat.le_refl _) (by omega)
        rw [← hone] at hr hs
        rw [← hr, bufReplace_seg _ _ _ (by omega) (by omega)]
    · rw [dif_neg hb, dif_neg hb]
      have hm1 : lo < lo + (hi - lo) / 2 := by omega
      have hm2 : lo + (hi - lo) / 2 ≤ hi := by omega
      have hOlm := offsets_mono offsets gs lo hi hstep lo (lo + (hi - lo) / 2)
        (Nat.le_refl _) (by omega) (by omega)
      have hOmh := offsets_mono offsets gs lo hi hstep (lo + (hi - lo) / 2) hi
        (by omega) (by omega) (Nat.le_refl _)
      have hlenL : (encRecs (treeSortF less gs lo (lo + (hi - lo) / 2))).length =
          offsets.getD (lo + (hi - lo) / 2) 0 - offsets.getD lo 0 :=
        treeSortF_encLen less offsets gs (hi - lo) lo _ (by omega) (by omega)
          (fun i h1 h2 => hstep i h1 (by omega))
      have hlenR : (encRecs (treeSortF less gs (lo + (hi - lo) / 2) hi)).length =
          offsets.getD hi 0 - offsets.getD (lo + (hi - lo) / 2) 0 :=
        treeSortF_encLen less offsets gs (hi - lo) _ hi (by omega) (by omega)
          (fun i h1 h2 => hstep i (by omega) h2)
      have hL := ih lo (lo + (hi - lo) / 2) buf (by omega) (by omega)
        (fun i h1 h2 => hstep i h1 (by omega))
        (fun i h1 h2 => hreg i h1 (by omega))
        (fun i h1 h2 => hwf i h1 (by omega))
        (by omega)
      simp only [hL]
      have hb1len : (bufReplace buf (offsets.getD lo 0) (offsets.getD (lo + (hi - lo) / 2) 0)
          (encRecs (treeSortF less gs lo (lo + (hi - lo) / 2)))).length = buf.length :=
        length_bufReplace _ _ _ _ (by omega) (by omega) (by omega)
      have hR := ih (lo + (hi - lo) / 2) hi
        (bufReplace buf (offsets.getD lo 0) (offsets.getD (lo + (hi - lo) / 2) 0)
          (encRecs (treeSortF less gs lo (lo + (hi - lo) / 2))))
        (by omega) (by omega)
        (fun i h1 h2 => hstep i (by omega) h2)
        (fun i h1 h2 => by
          rw [seg_bufReplace_right buf (offsets.getD lo 0) _ _ _ _
            (by omega) (by omega) (by omega)
            (le_trans (offsets_mono offsets gs lo hi hstep (lo + (hi - lo) / 2) i
              (by omega) (by omega) (by omega)) (Nat.le_refl _))]
          exact hreg i (by omega) h2)
        (fun i h1 h2 => hwf i (by omega) h2)
        (by omega)
      simp only [hR]
      have hmergespec := mergeInPlace_spec less
        (bufReplace
          (bufReplace buf (offsets.getD lo 0) (offsets.getD (lo + (hi - lo) / 2) 0)
            (encRecs (treeSortF less gs lo (lo + (hi - lo) / 2))))
          (offsets.getD (lo + (hi - lo) / 2) 0) (offsets.getD hi 0)
          (encRecs (treeSortF less gs (lo + (hi - lo) / 2) hi)))
        (offsets.getD lo 0) (offsets.getD (lo + (hi - lo) / 2) 0) (offsets.getD hi 0)
        (treeSortF less gs lo (lo + (hi - lo) / 2))
        (treeSortF less gs (lo + (hi - lo) / 2) hi)
        (by
          rw [seg_bufReplace_left _ _ _ _ _ _ (Nat.le_refl _) (by rw [hb1len]; omega)]
          exact seg_bufReplace_self buf _ _ _ (by omega) (by omega) (by omega))
        (seg_bufReplace_self _ _ _ _ (by omega) (by rw [hb1len]; omega) (by omega))
        (by omega) (by omega)
        (by rw [length_bufReplace _ _ _ _ (by omega) (by rw [hb1len]; omega) (by omega), hb1len]; omega)
        (fun p hp => by
          obtain ⟨i, h1, h2, h3⟩ := mem_treeSortF less gs (hi - lo) lo _ (by omega) p hp
          exact hwf i h1 (by omega) p h3)
        (fun p hp => by
          obtain ⟨i, h1, h2, h3⟩ := mem_treeSortF less gs (hi - lo) _ hi (by omega) p hp
          exact hwf i (by omega) h2 p h3)
      simp only [hmergespec]
      refine bufReplace_congr_outside _ _ _ _ _ ?_ ?_
      · rw [take_bufReplace_le _ _ _ _ _ (by omega) (by rw [hb1len]; omega)]
        rw [take_bufReplace_le _ _ _ _ _ (by omega) (by omega)]
      · rw [drop_bufReplace_ge _ _ _ _ _ (by omega) (by rw [hb1len]; omega) (by omega) (by omega)]
        rw [drop_bufReplace_ge _ _ _ _ _ (by omega) (by omega) (by omega) (by omega)]

/-! ### Assembly helpers -/

theorem chunks1024_flatten_aux (n : Nat) :
    ∀ ps : List Bytes, ps.length ≤ n → (chunks1024 ps).flatten = ps := by
  induction n using Nat.strong_induction_on with
  | _ n ih =>
    intro ps hlen
    by_cases hne : ps = []
    · subst hne
      rw [chunks1024, dif_pos rfl]
      rfl
    · rw [chunks1024, dif_neg hne, List.flatten_cons]
      have hpos : 0 < ps.length := List.length_pos.mpr hne
      have hlt : (ps.drop 1024).length < n := by
        simp only [List.length_drop]
        omega
      rw [ih _ hlt _ (Nat.le_refl _)]
      exact List.take_append_drop 1024 ps

theorem chunks1024_flatten (ps : List Bytes) : (chunks1024 ps).flatten = ps :=
  chunks1024_flatten_aux ps.length ps (Nat.le_refl _)

theorem chunkBounds_length (start : Nat) (cs : List (List Bytes)) :
    (chunkBounds start cs).length = cs.length + 1 := by
  induction cs generalizing start with
  | nil => rfl
  | cons c cs ih => simp [chunkBounds, ih]

theorem chunkBounds_getD_zero (start : Nat) (cs : List (List Bytes)) :
    (chunkBounds start cs).getD 0 0 = start := by
  cases cs <;> rfl

theorem chunkBounds_getD_last (start : Nat) (cs : List (List Bytes)) :
    (chunkBounds start cs).getD cs.length 0 = start + (encRecs cs.flatten).length := by
  induction cs generalizing start with
  | nil => simp [chunkBounds, encRecs_nil]
  | cons c cs ih =>
    rw [chunkBounds, List.length_cons]
    rw [List.getD_cons_succ, ih]
    rw [List.flatten_cons, encRecs_append]
    simp
    omega

theorem chunkBounds_getD_step (start : Nat) (cs : List (List Bytes)) :
    ∀ i, i < cs.length →
    (chunkBounds start cs).getD (i + 1) 0 =
      (chunkBounds start cs).getD i 0 + (encRecs (cs.getD i [])).length := by
  induction cs generalizing start with
  | nil => intro i hi; simp at hi
  | cons c cs ih =>
    intro i hi
    cases i with
    | zero =>
      rw [chunkBounds]
      rcases chunkBounds_shape (start + (encRecs c).length) cs with ⟨t, ht⟩
      rw [List.getD_cons_succ, List.getD_cons_zero, ht, List.getD_cons_zero]
      rfl
    | succ j =>
      rw [chunkBounds, List.getD_cons_succ, List.getD_cons_succ]
      rw [ih _ j (by simpa using Nat.lt_of_succ_lt_succ (by simpa using hi))]
      rfl

theorem chunkBounds_map_insSort (less : LessFunc) (start : Nat) (cs : List (List Bytes)) :
    chunkBounds start (cs.map (insSort less)) = chunkBounds start cs := by
  induction cs generalizing start with
  | nil => rfl
  | cons c cs ih =>
    rw [List.map_cons, chunkBounds, chunkBounds]
    rw [length_encRecs_perm (insSort_perm less c), ih]

theorem flatten_map_insSort_perm (less : LessFunc) (cs : List (List Bytes)) :
    ((cs.map (insSort less)).flatten).Perm cs.flatten := by
  induction cs with
  | nil => simp
  | cons c cs ih =>
    rw [List.map_cons, List.flatten_cons, List.flatten_cons]
    exact (insSort_perm less c).append ih

theorem mem_getD_chunk {cs : List (List Bytes)} {i : Nat} (hi : i < cs.length)
    {p : Bytes} (hp : p ∈ cs.getD i []) : p ∈ cs.flatten := by
  rw [List.getD_eq_getElem?_getD, List.getElem?_eq_getElem hi] at hp
  exact List.mem_flatten.mpr ⟨cs[i], List.getElem_mem hi, by simpa using hp⟩

/-- A buffer whose region is a concatenation of chunk encodings holds every
chunk at its chunk-bound span. -/
theorem chunk_regions (cs : List (List Bytes)) :
    ∀ (buf : Bytes) (start : Nat),
    seg buf start (start + (encRecs cs.flatten).length) = encRecs cs.flatten →
    start + (encRecs cs.flatten).length ≤ buf.length →
    ∀ i, i < cs.length →
    seg buf ((chunkBounds start cs).getD i 0) ((chunkBounds start cs).getD (i + 1) 0) =
      encRecs (cs.getD i []) := by
  induction cs with
  | nil => intro buf start _ _ i hi; simp at hi
  | cons c cs ih =>
    intro buf start hreg hlen i hi
    have hflat : (c :: cs).flatten = c ++ cs.flatten := rfl
    have hlsum : (encRecs (c :: cs).flatten).length =
        (encRecs c).length + (encRecs cs.flatten).length := by
      rw [hflat, encRecs_append, List.length_append]
    have hsplit := seg_split buf start (start + (encRecs (c :: cs).flatten).length)
      (encRecs c) (encRecs cs.flatten)
      (by rw [hreg, hflat, encRecs_append]) (by omega) (by omega) (by omega)
    rcases chunkBounds_shape (start + (encRecs c).length) cs with ⟨t, ht⟩
    cases i with
    | zero =>
      rw [chunkBounds, List.getD_cons_zero, List.getD_cons_succ, ht, List.getD_cons_zero]
      exact hsplit.1
    | succ j =>
      rw [chunkBounds, List.getD_cons_succ, List.getD_cons_succ]
      have hreg' : seg buf (start + (encRecs c).length)
          (start + (encRecs c).length + (encRecs cs.flatten).length) = encRecs cs.flatten := by
        have := hsplit.2
        have harith : start + (encRecs c).length + (encRecs cs.flatten).length =
            start + (encRecs (c :: cs).flatten).length := by omega
        rw [harith]
        exact this
      exact ih buf (start + (encRecs c).length) hreg' (by omega) j
        (by simpa using Nat.lt_of_succ_lt_succ (by simpa using hi))

/-- Full refinement of `SortSliceBetween` on a well-formed record region:
the span `[start, endP)` is rewritten with the encoding of the abstract
chunk-sort-and-merge permutation `absSort`, and nothing else changes. -/
theorem SortSliceBetween_spec (b : Buffer) (ps : List Bytes) (less : LessFunc)
    (start endP : Nat)
    (h1 : 1 ≤ start) (h2 : start < endP)
    (hend : endP = start + (encRecs ps).length)
    (hwcur : endP ≤ b.offset) (hblen : b.offset ≤ b.buf.length)
    (hreg : seg b.buf start endP = encRecs ps)
    (hwf : ∀ p ∈ ps, p.length < 2 ^ 32) :
    b.SortSliceBetween start endP less =
      some { b with buf := bufReplace b.buf start endP (encRecs (absSort less ps)) } := by
  have hne : ps ≠ [] := by
    intro h
    subst h
    rw [encRecs_nil] at hend
    simp at hend
    omega
  have hflat : (chunks1024 ps).flatten = ps := chunks1024_flatten ps
  have hpslen := length_encRecs_le ps
  have hwalk : walkOffsets b.buf b.offset endP endP start 0 = chunkMarks 0 start ps :=
    walkOffsets_spec b.buf b.offset ps start endP endP 0 hreg hend hwcur hblen hwf h1
      (by omega)
  obtain ⟨p0, ps0, rfl2⟩ : ∃ p0 ps0, ps = p0 :: ps0 := by
    cases ps with
    | nil => simp at hne
    | cons a l => exact ⟨a, l, rfl⟩
  have hmarks_ne : chunkMarks 0 start ps ≠ [] := by
    rw [rfl2, chunkMarks_head]
    simp
  have hlast : (chunkMarks 0 start ps).getLast? ≠ some endP := by
    intro hcon
    have hmem : endP ∈ chunkMarks 0 start ps := List.mem_of_mem_getLast? hcon
    have := chunkMarks_mem_lt ps 0 start endP hmem
    omega
  have hbounds : chunkMarks 0 start ps ++ [endP] = chunkBounds start (chunks1024 ps) := by
    have := chunkMarks_eq_chunkBounds ps hne start
    rw [← hend] at this
    exact this
  obtain ⟨t, ht⟩ := chunkBounds_shape start (chunks1024 ps)
  have ht2 : (chunkBounds start (chunks1024 ps)).tail = t := by
    rw [ht]
    rfl
  have hendP' : start + (encRecs (chunks1024 ps).flatten).length = endP := by
    rw [hflat]
    omega
  have hphase1 : sortSmallChain less b.offset b.buf start t =
      bufReplace b.buf start endP
        (encRecs (((chunks1024 ps).map (insSort less)).flatten)) := by
    rw [← ht2]
    have := sortSmallChain_spec less b.offset (chunks1024 ps) b.buf start
      (by rw [hflat, ← hend]; exact hreg) h1
      (by rw [hflat]; omega) hblen
      (by rw [hflat]; exact hwf)
    rw [hendP'] at this
    exact this
  have hFlen : (encRecs (((chunks1024 ps).map (insSort less)).flatten)).length =
      endP - start := by
    rw [length_encRecs_perm (flatten_map_insSort_perm less (chunks1024 ps)), hflat]
    omega
  -- phase 2: the hierarchical merge
  have hcs'len : ((chunks1024 ps).map (insSort less)).length = (chunks1024 ps).length :=
    List.length_map _ _
  have hstepm := chunkBounds_getD_step start ((chunks1024 ps).map (insSort less))
  rw [chunkBounds_map_insSort] at hstepm
  have hregs := chunk_regions ((chunks1024 ps).map (insSort less))
    (bufReplace b.buf start endP (encRecs (((chunks1024 ps).map (insSort less)).flatten)))
    start
    (by
      have hseg := seg_bufReplace_self b.buf start endP
        (encRecs (((chunks1024 ps).map (insSort less)).flatten))
        (by omega) (by omega) (by omega)
      have harith : start + (encRecs (((chunks1024 ps).map (insSort less)).flatten)).length
          = endP := by omega
      rw [harith]
      exact hseg)
    (by
      rw [length_bufReplace _ _ _ _ (by omega) (by omega) (by omega)]
      omega)
  rw [chunkBounds_map_insSort] at hregs
  have hlast' := chunkBounds_getD_last start ((chunks1024 ps).map (insSort less))
  rw [chunkBounds_map_insSort, hcs'len] at hlast'
  have hlastO : (chunkBounds start (chunks1024 ps)).getD (chunks1024 ps).length 0 = endP := by
    rw [hlast']
    rw [length_encRecs_perm (flatten_map_insSort_perm less (chunks1024 ps)), hflat]
    omega
  have hzeroO : (chunkBounds start (chunks1024 ps)).getD 0 0 = start :=
    chunkBounds_getD_zero start (chunks1024 ps)
  have hsort2 := sortRec_spec less (chunkBounds start (chunks1024 ps))
    (fun i => ((chunks1024 ps).map (insSort less)).getD i [])
    (chunks1024 ps).length 0 (chunks1024 ps).length
    (bufReplace b.buf start endP (encRecs (((chunks1024 ps).map (insSort less)).flatten)))
    (by omega) (by omega)
    (fun i _ hi => hstepm i (by omega))
    (fun i _ hi => hregs i (by omega))
    (fun i _ hi p hp => by
      have hm1 : p ∈ ((chunks1024 ps).map (insSort less)).flatten :=
        mem_getD_chunk (by omega) hp
      have hm2 : p ∈ (chunks1024 ps).flatten :=
        (flatten_map_insSort_perm less (chunks1024 ps)).mem_iff.mp hm1
      exact hwf p (by rw [← hflat]; exact hm2))
    (by
      rw [hlastO, length_bufReplace _ _ _ _ (by omega) (by omega) (by omega)]
      omega)
  rw [hzeroO, hlastO] at hsort2
  have hcollapse := bufReplace_collapse b.buf start endP
    (encRecs (((chunks1024 ps).map (insSort less)).flatten))
    (encRecs (treeSortF less (fun i => ((chunks1024 ps).map (insSort less)).getD i []) 0
      (chunks1024 ps).length))
    (by omega) (by omega) (by omega)
  have habs : absSort less ps =
      treeSortF less (fun i => ((chunks1024 ps).map (insSort less)).getD i []) 0
        (chunks1024 ps).length := by
    rw [absSort, hcs'len]
  have hK : (chunkBounds start (chunks1024 ps)).length - 1 = (chunks1024 ps).length := by
    rw [chunkBounds_length]
    omega
  -- assemble
  rw [Buffer.SortSliceBetween, if_neg (by omega), if_neg (by omega)]
  simp only [hwalk, if_neg hmarks_ne, if_pos hlast, hbounds, ht]
  have htlen : t.length = (chunks1024 ps).length := by
    have hcb := chunkBounds_length start (chunks1024 ps)
    rw [ht] at hcb
    simpa using hcb
  rw [ht] at hsort2
  simp only [List.length_cons, Nat.add_sub_cancel, htlen, hphase1, hsort2, hcollapse, habs]

/-! ### Abstract properties of absSort -/

theorem treeSortF_perm_getD (less : LessFunc) (cs' : List (List Bytes)) :
    ∀ (d lo hi : Nat), hi - lo ≤ d → hi ≤ cs'.length →
    (treeSortF less (fun i => cs'.getD i []) lo hi).Perm
      (((cs'.drop lo).take (hi - lo)).flatten) := by
  intro d
  induction d with
  | zero =>
    intro lo hi hd _
    rw [treeSortF]
    rcases Nat.lt_or_ge lo hi with h | h
    · omega
    · rw [dif_pos (by omega), if_pos (by omega)]
      have : hi - lo = 0 := by omega
      simp [this]
  | succ d ih =>
    intro lo hi hd hhi
    rw [treeSortF]
    by_cases hb : lo = lo + (hi - lo) / 2
    · rw [dif_pos hb]
      by_cases hle : hi ≤ lo
      · rw [if_pos hle]
        have : hi - lo = 0 := by omega
        simp [this]
      · rw [if_neg hle]
        have hone : hi = lo + 1 := by omega
        have hlt : lo < cs'.length := by omega
        have htake : (cs'.drop lo).take (hi - lo) = [cs'.getD lo []] := by
          rw [hone]
          have : lo + 1 - lo = 1 := by omega
          rw [this]
          rw [List.getD_eq_getElem?_getD, List.getElem?_eq_getElem hlt]
          rw [List.take_one, List.head?_drop, List.getElem?_eq_getElem hlt]
          rfl
        rw [htake]
        simp
    · rw [dif_neg hb]
      have hm1 : lo < lo + (hi - lo) / 2 := by omega
      have hm2 : lo + (hi - lo) / 2 ≤ hi := by omega
      have hL := ih lo (lo + (hi - lo) / 2) (by omega) (by omega)
      have hR := ih (lo + (hi - lo) / 2) hi (by omega) hhi
      have hsplit : (cs'.drop lo).take (hi - lo) =
          (cs'.drop lo).take ((hi - lo) / 2) ++
            ((cs'.drop lo).drop ((hi - lo) / 2)).take (hi - lo - (hi - lo) / 2) := by
        rw [← List.take_add]
        congr 1
        omega
      have e1 : lo + (hi - lo) / 2 - lo = (hi - lo) / 2 := by omega
      have e2 : hi - (lo + (hi - lo) / 2) = hi - lo - (hi - lo) / 2 := by omega
      have e3 : (cs'.drop lo).drop ((hi - lo) / 2) = cs'.drop (lo + (hi - lo) / 2) :=
        List.drop_drop _ _ _
      refine (mergeRecs_perm less _ _).trans ((hL.append hR).trans (List.Perm.of_eq ?_))
      rw [e1, e2, ← e3, ← List.flatten_append, ← hsplit]

theorem treeSortF_pairwise (less : LessFunc)
    (hasym : ∀ a b, less a b = true → less b a = false)
    (hneg : ∀ a b c, less a b = false → less b c = false → less a c = false)
    (gs : Nat → List Bytes)
    (hgs : ∀ i, (gs i).Pairwise (fun a b => less b a = false)) :
    ∀ (d lo hi : Nat), hi - lo ≤ d →
    (treeSortF less gs lo hi).Pairwise (fun a b => less b a = false) := by
  intro d
  induction d with
  | zero =>
    intro lo hi hd
    rw [treeSortF]
    rcases Nat.lt_or_ge lo hi with h | h
    · omega
    · rw [dif_pos (by omega), if_pos (by omega)]
      exact List.Pairwise.nil
  | succ d ih =>
    intro lo hi hd
    rw [treeSortF]
    by_cases hb : lo = lo + (hi - lo) / 2
    · rw [dif_pos hb]
      by_cases hle : hi ≤ lo
      · rw [if_pos hle]
        exact List.Pairwise.nil
      · rw [if_neg hle]
        exact hgs lo
    · rw [dif_neg hb]
      exact mergeRecs_pairwise less hasym hneg _ _
        (ih lo _ (by omega)) (ih _ hi (by omega))

theorem absSort_perm (less : LessFunc) (ps : List Bytes) :
    (absSort less ps).Perm ps := by
  rw [absSort]
  refine (treeSortF_perm_getD less ((chunks1024 ps).map (insSort less))
    ((chunks1024 ps).map (insSort less)).length 0 _ (by omega) (Nat.le_refl _)).trans ?_
  rw [List.drop_zero, Nat.sub_zero, List.take_length]
  exact (flatten_map_insSort_perm less (chunks1024 ps)).trans
    (List.Perm.of_eq (chunks1024_flatten ps))

theorem absSort_pairwise (less : LessFunc)
    (hasym : ∀ a b, less a b = true → less b a = false)
    (hneg : ∀ a b c, less a b = false → less b c = false → less a c = false)
    (ps : List Bytes) :
    (absSort less ps).Pairwise (fun a b => less b a = false) := by
  rw [absSort]
  refine treeSortF_pairwise less hasym hneg _ ?_ _ 0 _ (Nat.le_refl _)
  intro i
  by_cases hi : i < ((chunks1024 ps).map (insSort less)).length
  · rw [List.getD_eq_getElem?_getD, List.getElem?_eq_getElem hi]
    rw [List.length_map] at hi
    simp only [List.getElem_map, Option.getD_some]
    exact insSort_pairwise less hasym hneg _
  · rw [List.getD_eq_getElem?_getD, List.getElem?_eq_none (by omega)]
    exact List.Pairwise.nil

/-- The payload walk of `SortSliceBetween` yields exactly the record list of
a well-formed region. -/
theorem walkPayloads_spec (buf : Bytes) (wcur : Nat) (ps : List Bytes) :
    ∀ (start endP fuel : Nat),
    seg buf start endP = encRecs ps →
    endP = start + (encRecs ps).length →
    endP ≤ wcur → wcur ≤ buf.length →
    (∀ p ∈ ps, p.length < 2 ^ 32) →
    1 ≤ start → ps.length ≤ fuel →
    walkPayloads buf wcur endP fuel start = ps := by
  induction ps with
  | nil =>
    intro start endP fuel _ hend _ _ _ _ _
    have hes : endP = start := by simpa [encRecs_nil] using hend
    cases fuel with
    | zero => rfl
    | succ f =>
      rw [walkPayloads, if_neg (by omega)]
  | cons p ps ih =>
    intro start endP fuel hreg hend hwcur hlen hwf h1 hfuel
    have lenc := length_encRecs_cons p ps
    have hse : start ≤ endP := by omega
    have hel : endP ≤ buf.length := by omega
    have hsplit := seg_split buf start endP (encRec p) (encRecs ps)
      (by rw [hreg, encRecs_cons]) hse hel (by rw [length_encRec]; omega)
    have hreg' : seg buf (start + (4 + p.length)) endP = encRecs ps := by
      have := hsplit.2
      rwa [length_encRec] at this
    have hslice := sliceRaw_at_record buf wcur start endP p ps hreg hend hwcur hlen
      (hwf p (by simp))
    obtain ⟨f, rfl⟩ : ∃ f, fuel = f + 1 := by
      cases fuel with
      | zero => simp at hfuel
      | succ f => exact ⟨f, rfl⟩
    rw [walkPayloads, if_pos (by constructor <;> omega)]
    have hpay : payloadAt buf wcur start = p := by
      rw [payloadAt, hslice]
      rfl
    rw [hpay]
    congr 1
    rw [hslice]
    by_cases hnx : start + 4 + p.length ≥ wcur
    · have hpse : (encRecs ps).length = 0 := by omega
      have hps : ps = [] := (encRecs_eq_nil_iff ps).mp (List.eq_nil_of_length_eq_zero hpse)
      subst hps
      simp only [if_pos hnx]
      cases f with
      | zero => rfl
      | succ g => rw [walkPayloads]; simp
    · simp only [if_neg hnx]
      have harith : start + 4 + p.length = start + (4 + p.length) := by omega
      rw [harith]
      exact ih (start + (4 + p.length)) endP f hreg' (by omega) hwcur hlen
        (fun q hq => hwf q (by simp [hq])) (by omega)
        (by simp only [List.length_cons] at hfuel; omega)

/-- C1: for every buffer populated with length-prefixed records on
`[start, endP)` and every strict-weak-ordering comparator `less` (asymmetric
with transitive complement), `SortSliceBetween start endP less` succeeds, and
afterwards the sequence of decoded payloads obtained by walking the record
chain from `start` to `endP` is non-decreasing under `less`, is a
permutation (same multiset) of the payloads walked before the call, and the
byte span `[start, endP)` has unchanged total length (all other buffer state
is untouched). -/
theorem c1_sortSliceBetween_sorts (b : Buffer) (ps : List Bytes) (less : LessFunc)
    (start endP : Nat)
    (h1 : 1 ≤ start) (h2 : start < endP)
    (hend : endP = start + (encRecs ps).length)
    (hwcur : endP ≤ b.offset) (hblen : b.offset ≤ b.buf.length)
    (hreg : seg b.buf start endP = encRecs ps)
    (hwf : ∀ p ∈ ps, p.length < 2 ^ 32)
    (hasym : ∀ x y, less x y = true → less y x = false)
    (hneg : ∀ x y z, less x y = false → less y z = false → less x z = false) :
    ∃ b' qs, b.SortSliceBetween start endP less = some b'
      ∧ walkPayloads b.buf b.offset endP endP start = ps
      ∧ walkPayloads b'.buf b'.offset endP endP start = qs
      ∧ qs.Pairwise (fun x y => less y x = false)
      ∧ qs.Perm ps
      ∧ b'.offset = b.offset ∧ b'.curSz = b.curSz ∧ b'.maxSz = b.maxSz
      ∧ b'.buf.length = b.buf.length
      ∧ b'.buf.take start = b.buf.take start
      ∧ b'.buf.drop endP = b.buf.drop endP
      ∧ (seg b'.buf start endP).length = (seg b.buf start endP).length := by
  have hpslen := length_encRecs_le ps
  have hqperm : (absSort less ps).Perm ps := absSort_perm less ps
  have hqlen : (encRecs (absSort less ps)).length = (encRecs ps).length :=
    length_encRecs_perm hqperm
  have hwfq : ∀ p ∈ absSort less ps, p.length < 2 ^ 32 :=
    fun p hp => hwf p (hqperm.mem_iff.mp hp)
  have hblen' : (bufReplace b.buf start endP (encRecs (absSort less ps))).length =
      b.buf.length := length_bufReplace _ _ _ _ (by omega) (by omega) (by omega)
  have hqreg : seg (bufReplace b.buf start endP (encRecs (absSort less ps))) start endP =
      encRecs (absSort less ps) := by
    have := seg_bufReplace_self b.buf start endP (encRecs (absSort less ps))
      (by omega) (by omega) (by omega)
    exact this
  refine ⟨{ b with buf := bufReplace b.buf start endP (encRecs (absSort less ps)) },
    absSort less ps,
    SortSliceBetween_spec b ps less start endP h1 h2 hend hwcur hblen hreg hwf,
    walkPayloads_spec b.buf b.offset ps start endP endP hreg hend hwcur hblen hwf h1
      (by omega),
    walkPayloads_spec _ b.offset (absSort less ps) start endP endP hqreg
      (by omega) hwcur (by rw [hblen']; omega) hwfq h1
      (by rw [hqperm.length_eq]; omega),
    absSort_pairwise less hasym hneg ps,
    hqperm, rfl, rfl, rfl, hblen',
    take_bufReplace b.buf start endP _ (by omega),
    drop_bufReplace b.buf start endP _ (by omega) (by omega) (by omega),
    ?_⟩
  rw [seg_length _ _ _ (by omega) (by rw [hblen']; omega),
    seg_length _ _ _ (by omega) (by omega)]

/-- Witness for C1 at a concrete input: two records `[2]` and `[1]` with a
first-byte comparator. -/
theorem c1_witness :
    ∃ b' qs,
      Buffer.SortSliceBetween
        { buf := [0, 0, 0, 0, 1, 2, 0, 0, 0, 1, 1], offset := 11, curSz := 11, maxSz := 100 }
        1 11 (fun x y => decide (x.getD 0 0 < y.getD 0 0)) = some b'
      ∧ walkPayloads [0, 0, 0, 0, 1, 2, 0, 0, 0, 1, 1] 11 11 11 1 = [[2], [1]]
      ∧ walkPayloads b'.buf b'.offset 11 11 1 = qs
      ∧ qs.Pairwise (fun x y => (fun x y => decide (x.getD 0 0 < y.getD 0 0)) y x = false)
      ∧ qs.Perm [[2], [1]]
      ∧ b'.offset = 11 ∧ b'.curSz = 11 ∧ b'.maxSz = 100
      ∧ b'.buf.length = 11
      ∧ b'.buf.take 1 = [0]
      ∧ b'.buf.drop 11 = []
      ∧ (seg b'.buf 1 11).length = 10 := by
  have h := c1_sortSliceBetween_sorts
    { buf := [0, 0, 0, 0, 1, 2, 0, 0, 0, 1, 1], offset := 11, curSz := 11, maxSz := 100 }
    [[2], [1]] (fun x y => decide (x.getD 0 0 < y.getD 0 0)) 1 11
    (by decide) (by decide) (by decide) (by decide) (by decide) (by decide)
    (by decide)
    (fun x y hxy => by
      simp only [decide_eq_true_eq] at hxy
      simp only [decide_eq_false_iff_not]
      omega)
    (fun x y z hxy hyz => by
      simp only [decide_eq_false_iff_not] at hxy hyz
      simp only [decide_eq_false_iff_not]
      omega)
  obtain ⟨b', qs, hc1, hc2, hc3, hc4, hc5, hc6, hc7, hc8, hc9, hc10, hc11, hc12⟩ := h
  exact ⟨b', qs, hc1, hc2, hc3, hc4, hc5, hc6, hc7, hc8, hc9,
    by rw [hc10]; rfl, by rw [hc11]; rfl, by rw [hc12]; rfl⟩

/-! ### Buffer operation lemmas -/

theorem Inv_buf_ne_nil {b : Buffer} (h : Inv b) : b.buf ≠ [] := by
  obtain ⟨h1, h2, h3, h4⟩ := h
  intro hcon
  rw [hcon] at h3
  simp at h3
  omega

theorem copyInto_zero_take (dst src : Bytes) (h : src.length ≤ dst.length) :
    (copyInto dst 0 src).take src.length = src := by
  rw [copyInto, List.take_zero, List.nil_append]
  have hk : min src.length (dst.length - 0) = src.length := by omega
  rw [hk, List.take_of_length_le (Nat.le_refl _)]
  rw [List.take_append_of_le_length (by simp), List.take_of_length_le (Nat.le_refl _)]

/-- `Grow` panics exactly when the request can never be satisfied. -/
theorem Grow_none_iff (b : Buffer) (n : Nat) (hb : b.buf ≠ []) :
    b.Grow n = none ↔ (b.maxSz : Int) - (b.offset : Int) < (n : Int) := by
  rw [Buffer.Grow, if_neg hb]
  by_cases h : (b.maxSz : Int) - (b.offset : Int) < (n : Int)
  · rw [if_pos h]
    simp [h]
  · rw [if_neg h]
    by_cases h2 : (b.curSz : Int) - (b.offset : Int) > (n : Int)
    · rw [if_pos h2]
      simp [h]
    · rw [if_neg h2]
      simp [h]

/-- `Grow` is a no-op when it does not panic and the remaining capacity
already exceeds the request. -/
theorem Grow_noop (b : Buffer) (n : Nat) (hb : b.buf ≠ [])
    (hmax : ¬ (b.maxSz : Int) - (b.offset : Int) < (n : Int))
    (hcur : (b.curSz : Int) - (b.offset : Int) > (n : Int)) :
    b.Grow n = some b := by
  rw [Buffer.Grow, if_neg hb, if_neg hmax, if_pos hcur]

/-- Successful growth: the invariant is preserved, the cursor and max are
untouched, capacity never shrinks, capacity covers the request, and the
first `offset` bytes of the region are byte-identical. -/
theorem Grow_some (b : Buffer) (n : Nat) (b' : Buffer) (hinv : Inv b)
    (h : b.Grow n = some b') :
    Inv b' ∧ b'.offset = b.offset ∧ b'.maxSz = b.maxSz ∧ b.curSz ≤ b'.curSz ∧
    b'.offset + n ≤ b'.maxSz ∧
    b'.offset + n ≤ b'.curSz ∧ b'.buf.take b.offset = b.buf.take b.offset := by
  obtain ⟨h1, h2, h3, h4⟩ := hinv
  rw [Buffer.Grow, if_neg (Inv_buf_ne_nil ⟨h1, h2, h3, h4⟩)] at h
  by_cases hmax : (b.maxSz : Int) - (b.offset : Int) < (n : Int)
  · rw [if_pos hmax] at h
    simp at h
  rw [if_neg hmax] at h
  by_cases hcur : (b.curSz : Int) - (b.offset : Int) > (n : Int)
  · rw [if_pos hcur] at h
    have hb : b' = b := by
      simpa using h.symm
    subst hb
    refine ⟨⟨h1, h2, h3, h4⟩, rfl, rfl, Nat.le_refl _, by omega, by omega, rfl⟩
  · rw [if_neg hcur] at h
    simp only [Option.some.injEq] at h
    revert h
    generalize hg : (if n > if b.curSz + n > 2 ^ 30 then 2 ^ 30 else b.curSz + n then n
      else if b.curSz + n > 2 ^ 30 then 2 ^ 30 else b.curSz + n) = g
    intro h
    subst h
    have hgn : n ≤ g := by
      rw [← hg]
      by_cases hA : b.curSz + n > 2 ^ 30
      · rw [if_pos hA]
        by_cases hB : n > 2 ^ 30
        · rw [if_pos hB]
        · rw [if_neg hB]
          omega
      · rw [if_neg hA]
        by_cases hB : n > b.curSz + n
        · rw [if_pos hB]
        · rw [if_neg hB]
          omega
    have hclen : (Calloc (b.curSz + g)).length = b.curSz + g := by
      simp [Calloc]
    have hsl : (b.buf.take b.offset).length = b.offset := by
      simp
      omega
    refine ⟨⟨h1, ?_, ?_, h4⟩, rfl, rfl, ?_, ?_, ?_, ?_⟩
    · show b.offset ≤ b.curSz + g
      omega
    · show b.curSz + g = (copyInto (Calloc (b.curSz + g)) 0 (b.buf.take b.offset)).length
      rw [length_copyInto, hclen]
    · show b.curSz ≤ b.curSz + g
      omega
    · show b.offset + n ≤ b.maxSz
      omega
    · show b.offset + n ≤ b.curSz + g
      omega
    · show (copyInto (Calloc (b.curSz + g)) 0 (b.buf.take b.offset)).take b.offset =
        b.buf.take b.offset
      have := copyInto_zero_take (Calloc (b.curSz + g)) (b.buf.take b.offset)
        (by rw [hsl, hclen]; omega)
      rw [hsl] at this
      rw [this]

theorem seg_of_take_eq (l l' : Bytes) (a c m : Nat) (hcm : c ≤ m)
    (h : l.take m = l'.take m) : seg l a c = seg l' a c := by
  have h1 : l.take c = l'.take c := by
    have e1 : l.take c = (l.take m).take c := by
      rw [List.take_take]
      congr 1
      omega
    have e2 : l'.take c = (l'.take m).take c := by
      rw [List.take_take]
      congr 1
      omega
    rw [e1, e2, h]
  rw [seg, seg, h1]

/-- `Allocate`-then-fill: cursor advances by the payload length, the payload
sits at the old cursor, everything before the old cursor is preserved. -/
theorem AllocateFill_some (b : Buffer) (p : Bytes) (b' : Buffer) (hinv : Inv b)
    (h : b.AllocateFill p = some b') :
    Inv b' ∧ b'.offset = b.offset + p.length ∧ b'.maxSz = b.maxSz ∧ b.curSz ≤ b'.curSz ∧
    b'.buf.take b.offset = b.buf.take b.offset ∧
    seg b'.buf b.offset (b.offset + p.length) = p := by
  rw [Buffer.AllocateFill] at h
  rcases Option.map_eq_some'.mp h with ⟨b1, hg, hf⟩
  obtain ⟨hinv1, hoff, hmax, hcur, hmn, hcn, hpre⟩ := Grow_some b _ b1 hinv hg
  obtain ⟨i1, i2, i3, i4⟩ := hinv1
  subst hf
  have hble : b1.offset + p.length ≤ b1.buf.length := by omega
  have hcb : copyInto b1.buf b1.offset p =
      bufReplace b1.buf b1.offset (b1.offset + p.length) p :=
    copyInto_eq_bufReplace _ _ _ hble
  have hlen' : (copyInto b1.buf b1.offset p).length = b1.buf.length := length_copyInto _ _ _
  refine ⟨⟨?_, ?_, ?_, ?_⟩, ?_, hmax, hcur, ?_, ?_⟩
  · show 1 ≤ b1.offset + p.length
    omega
  · show b1.offset + p.length ≤ b1.curSz
    omega
  · show b1.curSz = (copyInto b1.buf b1.offset p).length
    rw [hlen']
    omega
  · show b1.offset + p.length ≤ b1.maxSz
    omega
  · show b1.offset + p.length = b.offset + p.length
    omega
  · show (copyInto b1.buf b1.offset p).take b.offset = b.buf.take b.offset
    rw [hcb, take_bufReplace_le _ _ _ _ _ (by omega) (by omega)]
    exact hpre
  · show seg (copyInto b1.buf b1.offset p) b.offset (b.offset + p.length) = p
    rw [hcb, ← hoff]
    exact seg_bufReplace_self _ _ _ _ (by omega) (by omega) (by omega)

theorem SliceAllocateFill_some (b : Buffer) (p : Bytes) (b' : Buffer) (hinv : Inv b)
    (h : b.SliceAllocateFill p = some b') :
    Inv b' ∧ b'.offset = b.offset + (4 + p.length) ∧ b'.maxSz = b.maxSz ∧
    b.curSz ≤ b'.curSz ∧
    b'.buf.take b.offset = b.buf.take b.offset ∧
    seg b'.buf b.offset (b.offset + (4 + p.length)) = encRec p := by
  rw [Buffer.SliceAllocateFill] at h
  simp only [bind, Option.bind_eq_some] at h
  obtain ⟨b1, hg, b2, hw, hf⟩ := h
  obtain ⟨hinv1, hoff1, hmax1, hcur1, hmn1, hcn1, hpre1⟩ := Grow_some b _ b1 hinv hg
  rw [Buffer.writeLen] at hw
  obtain ⟨hinv2, hoff2, hmax2, hcur2, hpre2, hseg2⟩ :=
    AllocateFill_some b1 (encodeU32 p.length) b2 hinv1 hw
  rw [length_encodeU32] at hoff2 hseg2
  obtain ⟨hinv3, hoff3, hmax3, hcur3, hpre3, hseg3⟩ := AllocateFill_some b2 p b' hinv2 hf
  obtain ⟨j1, j2, j3, j4⟩ := hinv3
  have ho1 : b1.offset = b.offset := hoff1
  have ho2 : b2.offset = b.offset + 4 := by omega
  have ho3 : b'.offset = b.offset + (4 + p.length) := by omega
  refine ⟨⟨j1, j2, j3, j4⟩, ho3, by rw [hmax3, hmax2, hmax1], by omega, ?_, ?_⟩
  · have hch : b'.buf.take b.offset = b2.buf.take b.offset := by
      have e1 : b'.buf.take b.offset = (b'.buf.take b2.offset).take b.offset := by
        rw [List.take_take]
        congr 1
        omega
      rw [e1, hpre3, List.take_take]
      congr 1
      omega
    rw [hch]
    have hch2 : b2.buf.take b.offset = b1.buf.take b.offset := by
      have e1 : b2.buf.take b.offset = (b2.buf.take b1.offset).take b.offset := by
        rw [List.take_take, ho1]
        simp
      rw [e1, hpre2, ho1, List.take_take, Nat.min_self]
    rw [hch2, hpre1]
  · have hs1 : seg b'.buf b.offset (b.offset + 4) = encodeU32 p.length := by
      rw [seg_of_take_eq b'.buf b2.buf _ _ b2.offset (by omega) hpre3, ← ho1]
      exact hseg2
    have hs2 : seg b'.buf (b.offset + 4) (b.offset + (4 + p.length)) = p := by
      have e : b.offset + (4 + p.length) = b2.offset + p.length := by omega
      rw [e, ← ho2]
      exact hseg3
    have hblen' : b.offset + (4 + p.length) ≤ b'.buf.length := by omega
    rw [seg_append_seg b'.buf b.offset (b.offset + 4) (b.offset + (4 + p.length))
      (by omega) (by omega) hblen', hs1, hs2]
    rfl

theorem Write_some (b : Buffer) (p : Bytes) (b' : Buffer) (hinv : Inv b)
    (h : b.Write p = some b') :
    Inv b' ∧ b'.offset = b.offset + p.length ∧ b'.maxSz = b.maxSz ∧ b.curSz ≤ b'.curSz ∧
    b'.buf.take b.offset = b.buf.take b.offset ∧
    seg b'.buf b.offset (b.offset + p.length) = p := by
  rw [Buffer.Write] at h
  rcases Option.map_eq_some'.mp h with ⟨b1, hg, hf⟩
  obtain ⟨hinv1, hoff, hmax, hcur, hmn, hcn, hpre⟩ := Grow_some b _ b1 hinv hg
  obtain ⟨i1, i2, i3, i4⟩ := hinv1
  have hk : min p.length (b1.buf.length - b1.offset) = p.length := by omega
  simp only [hk] at hf
  subst hf
  have hble : b1.offset + p.length ≤ b1.buf.length := by omega
  have hcb : copyInto b1.buf b1.offset p =
      bufReplace b1.buf b1.offset (b1.offset + p.length) p :=
    copyInto_eq_bufReplace _ _ _ hble
  have hlen' : (copyInto b1.buf b1.offset p).length = b1.buf.length := length_copyInto _ _ _
  refine ⟨⟨?_, ?_, ?_, ?_⟩, ?_, hmax, hcur, ?_, ?_⟩
  · show 1 ≤ b1.offset + p.length
    omega
  · show b1.offset + p.length ≤ b1.curSz
    omega
  · show b1.curSz = (copyInto b1.buf b1.offset p).length
    rw [hlen']
    omega
  · show b1.offset + p.length ≤ b1.maxSz
    omega
  · show b1.offset + p.length = b.offset + p.length
    omega
  · show (copyInto b1.buf b1.offset p).take b.offset = b.buf.take b.offset
    rw [hcb, take_bufReplace_le _ _ _ _ _ (by omega) (by omega)]
    exact hpre
  · show seg (copyInto b1.buf b1.offset p) b.offset (b.offset + p.length) = p
    rw [hcb, ← hoff]
    exact seg_bufReplace_self _ _ _ _ (by omega) (by omega) (by omega)

theorem NewBufferWith_inv (sz maxSz : Nat) : Inv (NewBufferWith sz maxSz) := by
  show 1 ≤ 1 ∧ 1 ≤ (if sz = 0 then 64 else sz) ∧
    (if sz = 0 then 64 else sz) = ((Calloc (if sz = 0 then 64 else sz)).set 0 0).length ∧
    1 ≤ (if maxSz = 0 then 2 ^ 31 - 1 else maxSz)
  refine ⟨Nat.le_refl 1, ?_, ?_, ?_⟩
  · split_ifs <;> omega
  · simp [Calloc]
  · split_ifs <;> omega

theorem stepOp_inv (b : Buffer) (op : Op) (b' : Buffer) (hinv : Inv b)
    (h : stepOp b op = some b') :
    Inv b' ∧ (op ≠ Op.reset → b.offset ≤ b'.offset) := by
  obtain ⟨h1, h2, h3, h4⟩ := hinv
  cases op with
  | grow n =>
    simp only [stepOp] at h
    obtain ⟨hinv', hoff, _⟩ := Grow_some b n b' ⟨h1, h2, h3, h4⟩ h
    exact ⟨hinv', fun _ => by omega⟩
  | allocate n =>
    simp only [stepOp, Buffer.Allocate, Option.map_map] at h
    rcases Option.map_eq_some'.mp h with ⟨b1, hg, heq⟩
    simp only [Function.comp] at heq
    obtain ⟨hinv1, hoff, hmax, hcur, hmn, hcn, _⟩ := Grow_some b n b1 ⟨h1, h2, h3, h4⟩ hg
    obtain ⟨i1, i2, i3, i4⟩ := hinv1
    subst heq
    refine ⟨⟨?_, ?_, ?_, ?_⟩, fun _ => ?_⟩
    · show 1 ≤ b1.offset + n
      omega
    · show b1.offset + n ≤ b1.curSz
      omega
    · show b1.curSz = b1.buf.length
      exact i3
    · show b1.offset + n ≤ b1.maxSz
      omega
    · show b.offset ≤ b1.offset + n
      omega
  | allocFill p =>
    simp only [stepOp] at h
    obtain ⟨hinv', hoff, _⟩ := AllocateFill_some b p b' ⟨h1, h2, h3, h4⟩ h
    exact ⟨hinv', fun _ => by omega⟩
  | sliceAlloc p =>
    simp only [stepOp] at h
    obtain ⟨hinv', hoff, _⟩ := SliceAllocateFill_some b p b' ⟨h1, h2, h3, h4⟩ h
    exact ⟨hinv', fun _ => by omega⟩
  | write p =>
    simp only [stepOp] at h
    obtain ⟨hinv', hoff, _⟩ := Write_some b p b' ⟨h1, h2, h3, h4⟩ h
    exact ⟨hinv', fun _ => by omega⟩
  | writeAt p off =>
    simp only [stepOp, Buffer.WriteAt] at h
    by_cases hc : off + p.length > b.buf.length
    · rw [if_pos hc] at h
      simp at h
    · rw [if_neg hc] at h
      simp only [Option.map_some', Option.some.injEq] at h
      subst h
      refine ⟨⟨h1, h2, ?_, h4⟩, fun _ => Nat.le_refl _⟩
      show b.curSz = (copyInto b.buf off p).length
      rw [length_copyInto]
      exact h3
  | writeSliceAt p off =>
    simp only [stepOp, Buffer.WriteSliceAt] at h
    by_cases hc : off + 4 + p.length > b.buf.length
    · rw [if_pos hc] at h
      simp at h
    · rw [if_neg hc] at h
      simp only [Option.map_some', Option.some.injEq] at h
      subst h
      refine ⟨⟨h1, h2, ?_, h4⟩, fun _ => Nat.le_refl _⟩
      show b.curSz = (copyInto (copyInto b.buf off (encodeU32 p.length)) (off + 4) p).length
      rw [length_copyInto, length_copyInto]
      exact h3
  | reset =>
    simp only [stepOp, Option.some.injEq] at h
    subst h
    refine ⟨⟨?_, ?_, ?_, ?_⟩, fun hne => absurd rfl hne⟩
    · show 1 ≤ 1
      exact Nat.le_refl 1
    · show 1 ≤ b.curSz
      omega
    · show b.curSz = b.buf.length
      exact h3
    · show 1 ≤ b.maxSz
      omega

theorem runOps_inv (ops : List Op) :
    ∀ b b', Inv b → runOps b ops = some b' → Inv b' := by
  induction ops with
  | nil =>
    intro b b' h hr
    rw [runOps, List.foldlM_nil, Option.pure_def, Option.some.injEq] at hr
    subst hr
    exact h
  | cons op ops ih =>
    intro b b' h hr
    rw [runOps, List.foldlM_cons] at hr
    rcases Option.bind_eq_some.mp hr with ⟨b1, hs, hrest⟩
    exact ih b1 b' (stepOp_inv b op b1 h hs).1 hrest

set_option maxRecDepth 40000 in
/-- C3 (counterexample): the claimed invariant `curSz <= maxSz` fails on a
reachable state: from `NewBufferWith(600, 1000)`, allocating 499 bytes and
then growing by 400 succeeds and leaves `curSz = 1600 > 1000 = maxSz`. -/
theorem c3_counterexample :
    ∃ b', runOps (NewBufferWith 600 1000) [Op.allocate 499, Op.grow 400] = some b'
      ∧ b'.offset = 500 ∧ b'.curSz = 1600 ∧ b'.maxSz = 1000
      ∧ ¬ b'.curSz ≤ b'.maxSz := by
  refine ⟨_, rfl, rfl, rfl, rfl, by decide⟩

/-- C3 (amended): for every buffer constructed via `NewBufferWith` and every
sequence of successful operations, the invariant
`1 <= writeCursor <= currentCapacity` and `writeCursor <= maxCapacity`
holds after each operation (`currentCapacity` can exceed `maxCapacity`, see
the counterexample), and the write cursor never decreases except by an
explicit `Reset`. -/
theorem c3_invariant_amended :
    (∀ sz maxSz, Inv (NewBufferWith sz maxSz))
    ∧ (∀ (b : Buffer) (op : Op) (b' : Buffer), Inv b → stepOp b op = some b' →
        Inv b' ∧ (op ≠ Op.reset → b.offset ≤ b'.offset))
    ∧ (∀ (sz maxSz : Nat) (ops : List Op) (b' : Buffer),
        runOps (NewBufferWith sz maxSz) ops = some b' → Inv b') :=
  ⟨NewBufferWith_inv, stepOp_inv,
    fun sz maxSz ops b' h => runOps_inv ops _ b' (NewBufferWith_inv sz maxSz) h⟩

set_option maxRecDepth 40000 in
/-- Witness for C3 (amended) at a concrete input. -/
theorem c3_witness :
    Inv (NewBufferWith 64 0)
    ∧ (∃ b', runOps (NewBufferWith 64 0) [Op.sliceAlloc [7]] = some b' ∧ Inv b') := by
  refine ⟨c3_invariant_amended.1 64 0, ⟨_, rfl, ?_⟩⟩
  exact c3_invariant_amended.2.2 64 0 [Op.sliceAlloc [7]] _ rfl

set_option maxRecDepth 40000 in
/-- C4 (counterexample): on the reachable state with
`offset = 500, curSz = 1600, maxSz = 1000`, the remaining capacity
`curSz - offset = 1100` exceeds the request 600, yet `Grow 600` panics
(because the `maxSz` check runs first), so "remaining capacity exceeds n
implies no-op" is false. -/
theorem c4_counterexample :
    ∃ b', runOps (NewBufferWith 600 1000) [Op.allocate 499, Op.grow 400] = some b'
      ∧ (b'.curSz : Int) - (b'.offset : Int) > (600 : Int)
      ∧ b'.Grow 600 = none := by
  refine ⟨_, rfl, by decide, by rfl⟩

/-- C4 (amended): for every initialized buffer, `Grow n` fails fatally
exactly when `maxSz - offset < n`; and whenever it does not fail fatally and
the remaining capacity `curSz - offset` exceeds `n`, it is a no-op that
changes no field. -/
theorem c4_grow_amended (b : Buffer) (n : Nat) (hb : b.buf ≠ []) :
    (b.Grow n = none ↔ (b.maxSz : Int) - (b.offset : Int) < (n : Int))
    ∧ ((b.maxSz : Int) - (b.offset : Int) ≥ (n : Int) →
       (b.curSz : Int) - (b.offset : Int) > (n : Int) → b.Grow n = some b) := by
  refine ⟨Grow_none_iff b n hb, fun hmax hcur => Grow_noop b n hb (by omega) hcur⟩

/-- Witness for C4 (amended) at a concrete input. -/
theorem c4_witness :
    ((NewBufferWith 8 10).Grow 100 = none ↔
      ((NewBufferWith 8 10).maxSz : Int) - ((NewBufferWith 8 10).offset : Int) < (100 : Int))
    ∧ (((NewBufferWith 8 10).maxSz : Int) - ((NewBufferWith 8 10).offset : Int) ≥ (100 : Int) →
       ((NewBufferWith 8 10).curSz : Int) - ((NewBufferWith 8 10).offset : Int) > (100 : Int) →
       (NewBufferWith 8 10).Grow 100 = some (NewBufferWith 8 10)) :=
  c4_grow_amended (NewBufferWith 8 10) 100 (by decide)

/-- C5: growth is transparent to already-written data: every successful
`Grow(n)` leaves the bytes at indices `[0, writeCursor)` of the region
byte-identical (and the cursor itself unchanged), so every previously
written record remains byte-identical at its original offset. -/
theorem c5_grow_transparent (b : Buffer) (n : Nat) (b' : Buffer) (hinv : Inv b)
    (h : b.Grow n = some b') :
    b'.buf.take b.offset = b.buf.take b.offset ∧ b'.offset = b.offset := by
  obtain ⟨_, hoff, _, _, _, _, hpre⟩ := Grow_some b n b' hinv h
  exact ⟨hpre, hoff⟩

/-- Witness for C5: growing a fresh 4-byte buffer by 50 (a reallocation). -/
theorem c5_witness :
    ∃ b', (NewBufferWith 4 100).Grow 50 = some b'
      ∧ b'.buf.take (NewBufferWith 4 100).offset =
          (NewBufferWith 4 100).buf.take (NewBufferWith 4 100).offset
      ∧ b'.offset = (NewBufferWith 4 100).offset := by
  refine ⟨_, rfl, c5_grow_transparent (NewBufferWith 4 100) 50 _ (by decide) rfl⟩

/-- C6: `Slice(offset)` with `offset >= writeCursor` returns the sentinel
`(nil, 0)`, and does so for every possible region content (no byte of the
region is read). -/
theorem c6_slice_sentinel (b : Buffer) (off : Nat) (h : off ≥ b.offset) :
    b.Slice off = (none, 0)
    ∧ ∀ buf2 : Bytes, Buffer.Slice { b with buf := buf2 } off = (none, 0) := by
  constructor
  · rw [Buffer.Slice, sliceRaw, if_pos h]
  · intro buf2
    rw [Buffer.Slice, sliceRaw, if_pos h]

/-- Witness for C6 at a concrete input: a fresh buffer has cursor 1, so
reading at offset 1 yields the sentinel. -/
theorem c6_witness :
    (NewBuffer 4).Slice 1 = (none, 0)
    ∧ ∀ buf2 : Bytes, Buffer.Slice { NewBuffer 4 with buf := buf2 } 1 = (none, 0) :=
  c6_slice_sentinel (NewBuffer 4) 1 (by decide)

/-- C7: the random-access operations fail with an out-of-bounds error
exactly when the requested span would exceed the current region length
(`curSz`, which equals the physical region length under the invariant),
perform no implicit growth (cursor, capacities and region length unchanged
on success), and on the error path return no modified state. -/
theorem c7_bounds_checks (b : Buffer) (p : Bytes) (n off : Nat) (hinv : Inv b) :
    (b.WriteAt p off = none ↔ off + p.length > b.curSz)
    ∧ (b.WriteSliceAt p off = none ↔ off + 4 + p.length > b.curSz)
    ∧ (b.ReadAt n off = none ↔ off + n > b.curSz)
    ∧ (∀ b2 k, b.WriteAt p off = some (b2, k) →
        b2.offset = b.offset ∧ b2.curSz = b.curSz ∧ b2.maxSz = b.maxSz ∧
        b2.buf.length = b.buf.length)
    ∧ (∀ b2 k, b.WriteSliceAt p off = some (b2, k) →
        b2.offset = b.offset ∧ b2.curSz = b.curSz ∧ b2.maxSz = b.maxSz ∧
        b2.buf.length = b.buf.length) := by
  obtain ⟨h1, h2, h3, h4⟩ := hinv
  refine ⟨?_, ?_, ?_, ?_, ?_⟩
  · rw [Buffer.WriteAt]
    by_cases hc : off + p.length > b.buf.length
    · rw [if_pos hc]
      simp
      omega
    · rw [if_neg hc]
      simp
      omega
  · rw [Buffer.WriteSliceAt]
    by_cases hc : off + 4 + p.length > b.buf.length
    · rw [if_pos hc]
      simp
      omega
    · rw [if_neg hc]
      simp
      omega
  · rw [Buffer.ReadAt]
    by_cases hc : off + n > b.buf.length
    · rw [if_pos hc]
      simp
      omega
    · rw [if_neg hc]
      simp
      omega
  · intro b2 k hw
    rw [Buffer.WriteAt] at hw
    by_cases hc : off + p.length > b.buf.length
    · rw [if_pos hc] at hw
      simp at hw
    · rw [if_neg hc] at hw
      simp only [Option.some.injEq, Prod.mk.injEq] at hw
      obtain ⟨hb2, _⟩ := hw
      subst hb2
      exact ⟨rfl, rfl, rfl, length_copyInto _ _ _⟩
  · intro b2 k hw
    rw [Buffer.WriteSliceAt] at hw
    by_cases hc : off + 4 + p.length > b.buf.length
    · rw [if_pos hc] at hw
      simp at hw
    · rw [if_neg hc] at hw
      simp only [Option.some.injEq, Prod.mk.injEq] at hw
      obtain ⟨hb2, _⟩ := hw
      subst hb2
      refine ⟨rfl, rfl, rfl, ?_⟩
      show (copyInto (copyInto b.buf off (encodeU32 p.length)) (off + 4) p).length = b.buf.length
      rw [length_copyInto, length_copyInto]

/-- Witness for C7 at a concrete input. -/
theorem c7_witness :
    ((NewBufferWith 8 0).WriteAt [1, 2] 3 = none ↔
      3 + [1, 2].length > (NewBufferWith 8 0).curSz)
    ∧ ((NewBufferWith 8 0).WriteSliceAt [1, 2] 3 = none ↔
      3 + 4 + [1, 2].length > (NewBufferWith 8 0).curSz)
    ∧ ((NewBufferWith 8 0).ReadAt 2 3 = none ↔ 3 + 2 > (NewBufferWith 8 0).curSz)
    ∧ (∀ b2 k, (NewBufferWith 8 0).WriteAt [1, 2] 3 = some (b2, k) →
        b2.offset = (NewBufferWith 8 0).offset ∧ b2.curSz = (NewBufferWith 8 0).curSz ∧
        b2.maxSz = (NewBufferWith 8 0).maxSz ∧
        b2.buf.length = (NewBufferWith 8 0).buf.length)
    ∧ (∀ b2 k, (NewBufferWith 8 0).WriteSliceAt [1, 2] 3 = some (b2, k) →
        b2.offset = (NewBufferWith 8 0).offset ∧ b2.curSz = (NewBufferWith 8 0).curSz ∧
        b2.maxSz = (NewBufferWith 8 0).maxSz ∧
        b2.buf.length = (NewBufferWith 8 0).buf.length) :=
  c7_bounds_checks (NewBufferWith 8 0) [1, 2] 2 3 (by decide)

set_option maxRecDepth 40000 in
/-- C8 (counterexample): `SortSliceBetween(0, 0, less)` does NOT fail
fatally: the `start >= end` early return runs before the `start == 0` panic
check, so the call is a no-op even though start is the reserved sentinel 0.
This refutes "for every end, SortSliceBetween(0, end, less) panics". -/
theorem c8_counterexample :
    (NewBuffer 4).SortSliceBetween 0 0 (fun _ _ => false) = some (NewBuffer 4) := by
  rfl

/-- C8 (amended): `SortSliceBetween(0, end, less)` fails fatally exactly for
`end > 0` (for `end <= 0 = start` the `start >= end` no-op check fires
first); and for every `start >= end` the call is a no-op that returns the
buffer unchanged. -/
theorem c8_sort_edge_amended (b : Buffer) (endP : Nat) (less : LessFunc) :
    (0 < endP → b.SortSliceBetween 0 endP less = none)
    ∧ (∀ s e, s ≥ e → b.SortSliceBetween s e less = some b) := by
  constructor
  · intro h
    rw [Buffer.SortSliceBetween, if_neg (by omega), if_pos rfl]
  · intro s e hse
    rw [Buffer.SortSliceBetween, if_pos hse]

/-- Witness for C8 (amended) at concrete inputs. -/
theorem c8_witness :
    (NewBuffer 4).SortSliceBetween 0 5 (fun _ _ => false) = none
    ∧ (NewBuffer 4).SortSliceBetween 3 3 (fun _ _ => false) = some (NewBuffer 4) :=
  ⟨(c8_sort_edge_amended (NewBuffer 4) 5 (fun _ _ => false)).1 (by decide),
   (c8_sort_edge_amended (NewBuffer 4) 5 (fun _ _ => false)).2 3 3 (by decide)⟩

/-- C10: `Len()` returns the write cursor itself, which counts the reserved
sentinel byte: `Len() = 1 + len(Bytes())`, a freshly constructed buffer has
`Len() = 1`, `IsEmpty()` holds exactly when the write cursor is 1, and it
holds again right after `Reset()`. -/
theorem c10_len_bytes (b : Buffer) (hinv : Inv b) :
    b.Len = 1 + b.Bytes.length
    ∧ (∀ sz maxSz, (NewBufferWith sz maxSz).Len = 1)
    ∧ (b.IsEmpty = true ↔ b.offset = 1)
    ∧ (b.Reset).IsEmpty = true := by
  obtain ⟨h1, h2, h3, h4⟩ := hinv
  refine ⟨?_, fun sz maxSz => rfl, ?_, ?_⟩
  · rw [Buffer.Len, Buffer.Bytes, seg_length b.buf 1 b.offset h1 (by omega)]
    omega
  · rw [Buffer.IsEmpty]
    simp
  · rw [Buffer.IsEmpty]
    simp [Buffer.Reset]

/-- Witness for C10 at a concrete input. -/
theorem c10_witness :
    (NewBuffer 16).Len = 1 + (NewBuffer 16).Bytes.length
    ∧ (∀ sz maxSz, (NewBufferWith sz maxSz).Len = 1)
    ∧ ((NewBuffer 16).IsEmpty = true ↔ (NewBuffer 16).offset = 1)
    ∧ ((NewBuffer 16).Reset).IsEmpty = true :=
  c10_len_bytes (NewBuffer 16) (by decide)

/-! ### Sorting on already-sorted input -/

theorem mergeRecs_nil_right (less : LessFunc) (xs : List Bytes) :
    mergeRecs less xs [] = xs := by
  cases xs with
  | nil => rw [mergeRecs]
  | cons x l => rw [mergeRecs]

theorem ordInsert_replicate {α : Type} (lt : α → α → Bool) (a : α)
    (h : lt a a = false) (n : Nat) :
    ordInsert lt a (List.replicate n a) = List.replicate (n + 1) a := by
  cases n with
  | zero => rfl
  | succ m =>
    rw [List.replicate_succ, ordInsert, if_neg (by simp [h])]
    rw [List.replicate_succ, List.replicate_succ]

theorem insSort_replicate {α : Type} (lt : α → α → Bool) (a : α)
    (h : lt a a = false) (n : Nat) :
    insSort lt (List.replicate n a) = List.replicate n a := by
  induction n with
  | zero => rfl
  | succ m ih =>
    rw [List.replicate_succ, insSort, ih, ordInsert_replicate lt a h m,
      List.replicate_succ]

theorem chunks1024_nil : chunks1024 ([] : List Bytes) = [] := by
  rw [chunks1024]
  simp

theorem chunks1024_of_ne (ps : List Bytes) (h : ps ≠ []) :
    chunks1024 ps = ps.take 1024 :: chunks1024 (ps.drop 1024) := by
  rw [chunks1024, dif_neg h]

theorem chunks1024_sublist (n : Nat) :
    ∀ ps : List Bytes, ps.length ≤ n → ∀ c ∈ chunks1024 ps, c.Sublist ps := by
  induction n with
  | zero =>
    intro ps hlen c hc
    have hnil : ps = [] := List.length_eq_zero.mp (by omega)
    subst hnil
    rw [chunks1024_nil] at hc
    simp at hc
  | succ m ih =>
    intro ps hlen c hc
    by_cases hne : ps = []
    · subst hne
      rw [chunks1024_nil] at hc
      simp at hc
    · rw [chunks1024_of_ne ps hne] at hc
      rcases List.mem_cons.mp hc with h1 | h1
      · subst h1
        exact List.take_sublist _ _
      · have hlen2 : (ps.drop 1024).length ≤ m := by
          have hpos : 0 < ps.length := List.length_pos.mpr hne
          simp only [List.length_drop]
          omega
        exact (ih (ps.drop 1024) hlen2 c h1).trans (List.drop_sublist _ _)

/-- The binary merge recursion applied to pairwise strictly increasing
chunks concatenates them back in order. -/
theorem treeSortF_flatten_of_sorted (less : LessFunc) (cs : List (List Bytes))
    (hcross : ∀ i j, i < j → j < cs.length →
      ∀ x ∈ cs.getD i [], ∀ y ∈ cs.getD j [], less x y = true) :
    ∀ (d lo hi : Nat), hi - lo ≤ d → hi ≤ cs.length →
    treeSortF less (fun i => cs.getD i []) lo hi =
      ((cs.drop lo).take (hi - lo)).flatten := by
  intro d
  induction d with
  | zero =>
    intro lo hi hd hhi
    rw [treeSortF, dif_pos (by omega), if_pos (by omega)]
    have h0 : hi - lo = 0 := by omega
    rw [h0]
    simp
  | succ m ih =>
    intro lo hi hd hhi
    rw [treeSortF]
    by_cases hb : lo = lo + (hi - lo) / 2
    · rw [dif_pos hb]
      by_cases hhl : hi ≤ lo
      · rw [if_pos hhl]
        have h0 : hi - lo = 0 := by omega
        rw [h0]
        simp
      · rw [if_neg hhl]
        have h1 : hi - lo = 1 := by omega
        have hlo : lo < cs.length := by omega
        rw [h1, List.drop_eq_getElem_cons hlo]
        have ht : List.take 1 (cs[lo] :: List.drop (lo + 1) cs) = [cs[lo]] := rfl
        rw [ht]
        simp [List.getD_eq_getElem?_getD, List.getElem?_eq_getElem hlo]
    · rw [dif_neg hb]
      have hm1 : lo < lo + (hi - lo) / 2 := by omega
      have hm2 : lo + (hi - lo) / 2 < hi := by omega
      have hL := ih lo (lo + (hi - lo) / 2) (by omega) (by omega)
      have hR := ih (lo + (hi - lo) / 2) hi (by omega) hhi
      have hmerge : mergeRecs less
            (treeSortF less (fun i => cs.getD i []) lo (lo + (hi - lo) / 2))
            (treeSortF less (fun i => cs.getD i []) (lo + (hi - lo) / 2) hi)
          = treeSortF less (fun i => cs.getD i []) lo (lo + (hi - lo) / 2)
            ++ treeSortF less (fun i => cs.getD i []) (lo + (hi - lo) / 2) hi := by
        apply mergeRecs_append_of_lt
        intro x hx y hy
        obtain ⟨i, hia, hib, hic⟩ := mem_treeSortF less (fun i => cs.getD i [])
          ((lo + (hi - lo) / 2) - lo) lo (lo + (hi - lo) / 2) (by omega) x hx
        obtain ⟨j, hja, hjb, hjc⟩ := mem_treeSortF less (fun i => cs.getD i [])
          (hi - (lo + (hi - lo) / 2)) (lo + (hi - lo) / 2) hi (by omega) y hy
        exact hcross i j (by omega) (by omega) x hic y hjc
      have hsplit : ∀ A, lo ≤ A → A ≤ hi →
          (cs.drop lo).take (hi - lo)
          = (cs.drop lo).take (A - lo) ++ (cs.drop A).take (hi - A) := by
        intro A hA1 hA2
        have h2 : hi - lo = (A - lo) + (hi - A) := by omega
        rw [h2, List.take_add, List.drop_drop]
        have h3 : lo + (A - lo) = A := by omega
        rw [h3]
      rw [hmerge, hL, hR, hsplit (lo + (hi - lo) / 2) (by omega) (by omega),
        List.flatten_append]

/-- On a record list that is pairwise strictly increasing under `less`, the
abstract sorter is the identity. -/
theorem absSort_of_sorted (less : LessFunc) (ps : List Bytes)
    (hasym : ∀ x y, less x y = true → less y x = false)
    (hsorted : ps.Pairwise (fun a b => less a b = true)) :
    absSort less ps = ps := by
  have hflat : (chunks1024 ps).flatten = ps := chunks1024_flatten ps
  have hpair : ((chunks1024 ps).flatten).Pairwise (fun a b => less a b = true) := by
    rw [hflat]
    exact hsorted
  rw [List.pairwise_flatten] at hpair
  obtain ⟨hchunk, hcrossP⟩ := hpair
  have hmap : (chunks1024 ps).map (insSort less) = chunks1024 ps := by
    calc (chunks1024 ps).map (insSort less)
        = (chunks1024 ps).map id :=
          List.map_congr_left (fun c hc => insSort_of_pairwise_lt less hasym c (hchunk c hc))
      _ = chunks1024 ps := List.map_id _
  have hcross : ∀ i j, i < j → j < (chunks1024 ps).length →
      ∀ x ∈ (chunks1024 ps).getD i [], ∀ y ∈ (chunks1024 ps).getD j [],
        less x y = true := by
    intro i j hij hj x hx y hy
    have hi' : i < (chunks1024 ps).length := by omega
    have hgi : (chunks1024 ps).getD i [] = (chunks1024 ps).get ⟨i, hi'⟩ := by
      simp [List.getD_eq_getElem?_getD, List.getElem?_eq_getElem hi']
    have hgj : (chunks1024 ps).getD j [] = (chunks1024 ps).get ⟨j, hj⟩ := by
      simp [List.getD_eq_getElem?_getD, List.getElem?_eq_getElem hj]
    have hrel := List.pairwise_iff_get.mp hcrossP ⟨i, hi'⟩ ⟨j, hj⟩ hij
    exact hrel x (by rw [← hgi]; exact hx) y (by rw [← hgj]; exact hy)
  simp only [absSort]
  rw [hmap]
  rw [treeSortF_flatten_of_sorted less (chunks1024 ps) hcross
    ((chunks1024 ps).length) 0 ((chunks1024 ps).length) (by omega) (Nat.le_refl _)]
  simp [hflat]

theorem treeSortF_pair (less : LessFunc) (R S : List Bytes) :
    treeSortF less (fun i => ([R, S] : List (List Bytes)).getD i []) 0 2
      = mergeRecs less R S := by
  rw [treeSortF, dif_neg (by norm_num)]
  have e : (0 : Nat) + (2 - 0) / 2 = 1 := by norm_num
  rw [e]
  rw [treeSortF, dif_pos (by norm_num), if_neg (by norm_num)]
  rw [treeSortF, dif_pos (by norm_num), if_neg (by norm_num)]
  rfl

theorem length_encRecs_replicate (n : Nat) (p : Bytes) :
    (encRecs (List.replicate n p)).length = n * (4 + p.length) := by
  induction n with
  | zero => simp [encRecs_nil]
  | succ m ih =>
    rw [List.replicate_succ, encRecs_cons, List.length_append, length_encRec, ih]
    ring

theorem seg_cons_full (a : Nat) (L : Bytes) : seg (a :: L) 1 (L.length + 1) = L := by
  simp [seg]

/-- C9 (counterexample): 1025 records that tie under the comparator — 1024
copies of `[1,0]` followed by one `[1,1]` — are already in non-decreasing
order (every pair ties), yet `SortSliceBetween 1 6151` moves the `[1,1]`
record to the front: the hierarchical merge takes the right (later) chunk
first on ties, so the bytes of `[start, end)` change.  This refutes the
idempotence claim. -/
theorem c9_counterexample :
    (List.replicate 1024 ([1, 0] : Bytes) ++ [[1, 1]]).Pairwise
        (fun a b => (fun x y : Bytes => decide (x.getD 0 0 < y.getD 0 0)) b a = false)
    ∧ ∃ b' : Buffer,
        Buffer.SortSliceBetween
          { buf := 0 :: encRecs (List.replicate 1024 ([1, 0] : Bytes) ++ [[1, 1]]),
            offset := 6151, curSz := 6151, maxSz := 10000 }
          1 6151 (fun x y : Bytes => decide (x.getD 0 0 < y.getD 0 0)) = some b'
        ∧ seg b'.buf 1 6151
            ≠ seg (0 :: encRecs (List.replicate 1024 ([1, 0] : Bytes) ++ [[1, 1]]))
                1 6151 := by
  set less9 : LessFunc := fun x y : Bytes => decide (x.getD 0 0 < y.getD 0 0) with hless
  set R : List Bytes := List.replicate 1024 [1, 0] with hR
  set ps9 : List Bytes := R ++ [[1, 1]] with hps9
  have hRl : R.length = 1024 := by rw [hR, List.length_replicate]
  have hlenR : (encRecs R).length = 6144 := by
    rw [hR, length_encRecs_replicate]
    rfl
  have hlen9 : (encRecs ps9).length = 6150 := by
    rw [hps9, encRecs_append, List.length_append, hlenR]
    rfl
  have gv : ∀ c : Bytes, c ∈ ps9 → c.getD 0 0 = 1 := by
    intro c hc
    rw [hps9] at hc
    rcases List.mem_append.mp hc with h | h
    · rw [hR] at h
      rw [List.eq_of_mem_replicate h]
      rfl
    · rw [List.mem_singleton] at h
      rw [h]
      rfl
  refine ⟨?_, ?_⟩
  · apply List.pairwise_of_forall_mem_list
    intro a ha b hb
    show less9 b a = false
    rw [hless]
    show decide (b.getD 0 0 < a.getD 0 0) = false
    rw [gv b hb, gv a ha]
    decide
  · have hseg : seg ((0 : Nat) :: encRecs ps9) 1 6151 = encRecs ps9 := by
      have h := seg_cons_full 0 (encRecs ps9)
      rw [hlen9] at h
      exact h
    have hspec := SortSliceBetween_spec
      { buf := 0 :: encRecs ps9, offset := 6151, curSz := 6151, maxSz := 10000 }
      ps9 less9 1 6151 (by omega) (by omega)
      (by rw [hlen9])
      (Nat.le_refl 6151)
      (by show (6151 : Nat) ≤ ((0 : Nat) :: encRecs ps9).length
          rw [List.length_cons, hlen9])
      hseg
      (by intro p hp
          rw [hps9] at hp
          rcases List.mem_append.mp hp with h | h
          · rw [hR] at h
            rw [List.eq_of_mem_replicate h]
            decide
          · rw [List.mem_singleton] at h
            rw [h]
            decide)
    refine ⟨_, hspec, ?_⟩
    rw [hseg]
    show seg (bufReplace ((0 : Nat) :: encRecs ps9) 1 6151
      (encRecs (absSort less9 ps9))) 1 6151 ≠ encRecs ps9
    have hchunks : chunks1024 ps9 = [R, [[1, 1]]] := by
      rw [hps9, chunks1024_of_ne _ (by simp)]
      rw [List.take_left' hRl, List.drop_left' hRl]
      rw [chunks1024_of_ne _ (by simp)]
      have ht : ([[1, 1]] : List Bytes).take 1024 = [[1, 1]] := rfl
      have hd : ([[1, 1]] : List Bytes).drop 1024 = [] := rfl
      rw [ht, hd, chunks1024_nil]
    have hinsR : insSort less9 R = R := by
      rw [hR]
      exact insSort_replicate _ _ (by rw [hless]; decide) 1024
    have hmapins : (chunks1024 ps9).map (insSort less9) = [R, [[1, 1]]] := by
      rw [hchunks, List.map_cons, List.map_cons, List.map_nil, hinsR]
      rw [show insSort less9 [[1, 1]] = [[1, 1]] from rfl]
    have habs : absSort less9 ps9 = [1, 1] :: R := by
      simp only [absSort]
      rw [hmapins]
      have hl2 : ([R, [[1, 1]]] : List (List Bytes)).length = 2 := rfl
      rw [hl2, treeSortF_pair]
      rw [hR]
      have e : (1024 : Nat) = 1023 + 1 := rfl
      rw [e, List.replicate_succ, mergeRecs, if_neg (by rw [hless]; decide)]
      rw [mergeRecs_nil_right]
    rw [habs]
    have hlenabs : (encRecs (([1, 1] : Bytes) :: R)).length = 6150 := by
      rw [length_encRecs_cons, hlenR]
      decide
    rw [seg_bufReplace_self _ _ _ _ (by omega)
      (by rw [List.length_cons, hlen9]) (by omega)]
    intro hc
    have h5 := congrArg (fun l : Bytes => l.getD 5 0) hc
    have hgetA : (encRecs (([1, 1] : Bytes) :: R)).getD 5 0 = 1 := rfl
    have hgetB : (encRecs ps9).getD 5 0 = 0 := by
      rw [hps9, hR]
      rfl
    simp only [] at h5
    rw [hgetA, hgetB] at h5
    exact absurd h5 (by decide)

/-- C9 (amended): sorting is idempotent on ranges whose records are pairwise
strictly increasing under `less` (no ties): `SortSliceBetween start endP
less` then returns the buffer completely unchanged.  (With ties the claim
fails once a chunk boundary is crossed, see the counterexample: the merge
stage takes tied records from the right chunk first.) -/
theorem c9_sort_idempotent_amended (b : Buffer) (ps : List Bytes) (less : LessFunc)
    (start endP : Nat)
    (hasym : ∀ x y, less x y = true → less y x = false)
    (h1 : 1 ≤ start) (h2 : start < endP)
    (hend : endP = start + (encRecs ps).length)
    (hwcur : endP ≤ b.offset) (hblen : b.offset ≤ b.buf.length)
    (hreg : seg b.buf start endP = encRecs ps)
    (hwf : ∀ p ∈ ps, p.length < 2 ^ 32)
    (hsorted : ps.Pairwise (fun a b => less a b = true)) :
    b.SortSliceBetween start endP less = some b := by
  rw [SortSliceBetween_spec b ps less start endP h1 h2 hend hwcur hblen hreg hwf,
    absSort_of_sorted less ps hasym hsorted, ← hreg,
    bufReplace_seg b.buf start endP (by omega) (by omega)]

/-- Witness for C9 (amended): three strictly increasing one-byte records. -/
theorem c9_witness :
    Buffer.SortSliceBetween
      { buf := 0 :: encRecs [[1], [2], [3]], offset := 16, curSz := 16, maxSz := 100 }
      1 16 (fun a b => decide (a.getD 0 0 < b.getD 0 0))
    = some { buf := 0 :: encRecs [[1], [2], [3]], offset := 16, curSz := 16,
             maxSz := 100 } :=
  c9_sort_idempotent_amended _ [[1], [2], [3]] _ 1 16
    (fun a b h => by simp at h ⊢; omega)
    (by decide) (by decide) (by decide) (by decide) (by decide) (by decide)
    (by decide) (by decide)

/-! ### Write–read round trip -/

theorem seg_self (l : Bytes) (i : Nat) : seg l i i = [] := by
  rw [seg]
  exact List.drop_of_length_le (by rw [List.length_take]; exact Nat.min_le_left _ _)

theorem recOffsets_ge (ps : List Bytes) : ∀ s, ∀ x ∈ recOffsets s ps, s ≤ x := by
  induction ps with
  | nil =>
    intro s x hx
    simp [recOffsets] at hx
  | cons p ps ih =>
    intro s x hx
    rw [recOffsets] at hx
    rcases List.mem_cons.mp hx with h | h
    · omega
    · have := ih (s + (4 + p.length)) x h
      omega

theorem AllocateFill_isSome (b : Buffer) (p : Bytes) (hinv : Inv b)
    (hroom : b.offset + p.length ≤ b.maxSz) :
    ∃ b', b.AllocateFill p = some b' := by
  rw [Buffer.AllocateFill]
  cases hg : b.Grow p.length with
  | none =>
    have := (Grow_none_iff b p.length (Inv_buf_ne_nil hinv)).mp hg
    omega
  | some b1 =>
    exact ⟨_, rfl⟩

theorem SliceAllocateFill_isSome (b : Buffer) (p : Bytes) (hinv : Inv b)
    (hroom : b.offset + (4 + p.length) ≤ b.maxSz) :
    ∃ b', b.SliceAllocateFill p = some b' := by
  cases hg : b.Grow (4 + p.length) with
  | none =>
    have := (Grow_none_iff b (4 + p.length) (Inv_buf_ne_nil hinv)).mp hg
    omega
  | some b1 =>
    obtain ⟨hinv1, hoff1, hmax1, _, _, _, _⟩ := Grow_some b _ b1 hinv hg
    obtain ⟨b2, hw⟩ := AllocateFill_isSome b1 (encodeU32 p.length) hinv1
      (by rw [length_encodeU32]; omega)
    obtain ⟨hinv2, hoff2, hmax2, _, _, _⟩ := AllocateFill_some b1 _ b2 hinv1 hw
    rw [length_encodeU32] at hoff2
    obtain ⟨b3, hf⟩ := AllocateFill_isSome b2 p hinv2 (by omega)
    refine ⟨b3, ?_⟩
    rw [Buffer.SliceAllocateFill]
    simp only [bind, Option.bind_eq_some]
    exact ⟨b1, hg, b2, hw, hf⟩

/-- `writeAll` appends the encoded records at the cursor, preserves
everything before the old cursor, and advances the cursor by the total
encoded length. -/
theorem writeAll_spec (ps : List Bytes) :
    ∀ (b b' : Buffer), Inv b → writeAll b ps = some b' →
    Inv b' ∧ b'.offset = b.offset + (encRecs ps).length
    ∧ b'.buf.take b.offset = b.buf.take b.offset
    ∧ seg b'.buf b.offset b'.offset = encRecs ps := by
  induction ps with
  | nil =>
    intro b b' hinv h
    rw [writeAll, List.foldlM_nil] at h
    have hb : b = b' := Option.some.inj h
    subst hb
    refine ⟨hinv, by simp [encRecs_nil], rfl, ?_⟩
    rw [encRecs_nil]
    exact seg_self _ _
  | cons p ps ih =>
    intro b b' hinv h
    rw [writeAll, List.foldlM_cons] at h
    cases hsf : b.SliceAllocateFill p with
    | none =>
      rw [hsf] at h
      simp at h
    | some b1 =>
      rw [hsf] at h
      replace h : writeAll b1 ps = some b' := h
      obtain ⟨hinv1, hoff1, hmax1, hcur1, htake1, hseg1⟩ :=
        SliceAllocateFill_some b p b1 hinv hsf
      obtain ⟨hinv2, hoff2, htake2, hseg2⟩ := ih b1 b' hinv1 h
      obtain ⟨k1, k2, k3, k4⟩ := hinv2
      have hmono : b.offset ≤ b1.offset := by omega
      have hmono2 : b1.offset ≤ b'.offset := by
        rw [hoff2]
        omega
      refine ⟨⟨k1, k2, k3, k4⟩, ?_, ?_, ?_⟩
      · rw [hoff2, hoff1, length_encRecs_cons]
        omega
      · have e1 : b'.buf.take b.offset = (b'.buf.take b1.offset).take b.offset := by
          rw [List.take_take]
          congr 1
          omega
        rw [e1, htake2, List.take_take]
        have e2 : min b.offset b1.offset = b.offset := by omega
        rw [e2, htake1]
      · have hsegA : seg b'.buf b.offset b1.offset = encRec p := by
          rw [seg_of_take_eq b'.buf b1.buf b.offset b1.offset b1.offset (le_refl _) htake2,
            hoff1]
          exact hseg1
        rw [seg_append_seg b'.buf b.offset b1.offset b'.offset hmono hmono2 (by omega),
          hsegA, hseg2, encRecs_cons]

/-- One step of the record-chain traversal through a well-formed region:
walking from `off` with enough fuel yields each payload once together with
the next offsets, the last of which is the collapsed sentinel 0. -/
theorem chainSteps_spec (b : Buffer) :
    ∀ (qs : List Bytes) (off fuel : Nat), qs ≠ [] →
    seg b.buf off b.offset = encRecs qs →
    b.offset = off + (encRecs qs).length →
    b.offset ≤ b.buf.length →
    (∀ p ∈ qs, p.length < 2 ^ 32) →
    1 ≤ off → qs.length ≤ fuel →
    (chainSteps b fuel off).filterMap Prod.fst = qs
    ∧ (chainSteps b fuel off).map Prod.snd = (recOffsets off qs).drop 1 ++ [0] := by
  intro qs
  induction qs with
  | nil =>
    intro off fuel hne _ _ _ _ _ _
    exact absurd rfl hne
  | cons p qs ih =>
    intro off fuel hne hreg hend hblen hwf hoff hfuel
    obtain ⟨f, rfl⟩ : ∃ f, fuel = f + 1 := by
      cases fuel with
      | zero => simp at hfuel
      | succ f => exact ⟨f, rfl⟩
    have lenc := length_encRecs_cons p qs
    have hslice := sliceRaw_at_record b.buf b.offset off b.offset p qs hreg hend
      (le_refl _) hblen (hwf p (by simp))
    by_cases hlast : qs = []
    · subst hlast
      have h0 : (encRecs ([] : List Bytes)).length = 0 := rfl
      have hofflen : b.offset = off + (4 + p.length) := by omega
      have hbs : b.Slice off = (some p, 0) := by
        rw [Buffer.Slice, hslice, if_pos (by omega)]
      have hstep : chainSteps b (f + 1) off = [(some p, 0)] := by
        rw [chainSteps, hbs]
        rfl
      rw [hstep]
      exact ⟨rfl, rfl⟩
    · obtain ⟨q, qs2, rfl⟩ : ∃ q qs2, qs = q :: qs2 := by
        cases qs with
        | nil => exact absurd rfl hlast
        | cons q qs2 => exact ⟨_, _, rfl⟩
      have hq : 0 < (encRecs (q :: qs2)).length := by
        have := length_encRecs_cons q qs2
        omega
      have hnext : off + 4 + p.length < b.offset := by omega
      have hsplit := seg_split b.buf off b.offset (encRec p) (encRecs (q :: qs2))
        (by rw [hreg, encRecs_cons]) (by omega) hblen (by rw [length_encRec]; omega)
      have hreg' : seg b.buf (off + (4 + p.length)) b.offset = encRecs (q :: qs2) := by
        have := hsplit.2
        rwa [length_encRec] at this
      have harith : off + 4 + p.length = off + (4 + p.length) := by omega
      obtain ⟨ih1, ih2⟩ := ih (off + (4 + p.length)) f hlast hreg' (by omega) hblen
        (fun r hr => hwf r (by simp [hr])) (by omega)
        (by simp only [List.length_cons] at hfuel ⊢; omega)
      have hbs : b.Slice off = (some p, off + 4 + p.length) := by
        rw [Buffer.Slice, hslice, if_neg (by omega)]
      have hstep : chainSteps b (f + 1) off
          = (some p, off + (4 + p.length))
            :: chainSteps b f (off + (4 + p.length)) := by
        rw [chainSteps, hbs]
        show (some p, off + 4 + p.length)
            :: (if off + 4 + p.length = 0 then []
                else chainSteps b f (off + 4 + p.length)) = _
        rw [if_neg (by omega), harith]
      rw [hstep]
      constructor
      · show p :: (chainSteps b f (off + (4 + p.length))).filterMap Prod.fst
            = p :: q :: qs2
        rw [ih1]
      · show (off + (4 + p.length))
            :: (chainSteps b f (off + (4 + p.length))).map Prod.snd
            = (recOffsets off (p :: q :: qs2)).drop 1 ++ [0]
        rw [ih2]
        rfl

/-- C2 (amended): for every sequence of `SliceAllocate(len p)` calls (each
returned span filled with `p`) on a fresh buffer, with every payload shorter
than `2^32` bytes (the length prefix is a `uint32`), the successful run
yields a buffer whose full-chain traversal from offset 1 returns exactly the
payloads in write order, byte-for-byte, with next-offsets the successive
record starts followed by the sentinel 0, which occurs exactly once —
after the last record. -/
theorem c2_roundtrip_amended (ps : List Bytes) (sz maxSz : Nat) (b' : Buffer)
    (hwf : ∀ p ∈ ps, p.length < 2 ^ 32)
    (h : writeAll (NewBufferWith sz maxSz) ps = some b') :
    chainRecords b' = ps
    ∧ chainNexts b' = (recOffsets 1 ps).drop 1 ++ [0]
    ∧ (chainNexts b').count 0 = 1 := by
  have hinv0 := NewBufferWith_inv sz maxSz
  obtain ⟨hinv', hoff', htake', hseg'⟩ :=
    writeAll_spec ps (NewBufferWith sz maxSz) b' hinv0 h
  have h1 : (NewBufferWith sz maxSz).offset = 1 := rfl
  rw [h1] at hoff' hseg'
  obtain ⟨i1, i2, i3, i4⟩ := hinv'
  by_cases hne : ps = []
  · subst hne
    have hoffv : b'.offset = 1 := by
      rw [hoff', encRecs_nil]
      rfl
    have hsl : b'.Slice 1 = (none, 0) := by
      rw [Buffer.Slice, sliceRaw, if_pos (by omega)]
    refine ⟨?_, ?_, ?_⟩
    · rw [chainRecords, hoffv, chainSteps, hsl]
      rfl
    · rw [chainNexts, hoffv, chainSteps, hsl]
      rfl
    · rw [chainNexts, hoffv, chainSteps, hsl]
      rfl
  · have hq1 : 0 < ps.length := List.length_pos.mpr hne
    have hlenb : b'.offset ≤ b'.buf.length := by omega
    obtain ⟨hc1, hc2⟩ := chainSteps_spec b' ps 1 b'.offset hne hseg' hoff' hlenb hwf
      (Nat.le_refl 1) (by have := length_encRecs_le ps; omega)
    refine ⟨hc1, hc2, ?_⟩
    have hnx : chainNexts b' = (recOffsets 1 ps).drop 1 ++ [0] := hc2
    rw [hnx, List.count_append, List.count_singleton_self]
    have hzero : ((recOffsets 1 ps).drop 1).count 0 = 0 := by
      rw [List.count_eq_zero]
      intro hmem
      have hge := recOffsets_ge ps 1 0 (List.mem_of_mem_drop hmem)
      omega
    rw [hzero]

/-- Witness for C2 (amended): two one-byte records on a fresh buffer. -/
theorem c2_witness :
    ∃ b' : Buffer, writeAll (NewBufferWith 4 100) [[7], [8]] = some b'
      ∧ chainRecords b' = [[7], [8]]
      ∧ chainNexts b' = (recOffsets 1 [[7], [8]]).drop 1 ++ [0]
      ∧ (chainNexts b').count 0 = 1 := by
  refine ⟨_, rfl, c2_roundtrip_amended [[7], [8]] 4 100 _ (by decide) rfl⟩

/-- C2 (counterexample): a single payload of `2^32` zero bytes is written
successfully (capacity permitting), but its `uint32` length prefix wraps to
0, so the traversal reads back an empty payload instead of the original:
the round-trip claim fails without a payload-size bound. -/
theorem c2_counterexample :
    ∃ b' : Buffer,
      writeAll (NewBufferWith 64 (2 ^ 40)) [List.replicate (2 ^ 32) 0] = some b'
      ∧ chainRecords b' ≠ [List.replicate (2 ^ 32) 0] := by
  set p : Bytes := List.replicate (2 ^ 32) 0 with hp
  set b0 : Buffer := NewBufferWith 64 (2 ^ 40) with hb0
  have hinv0 : Inv b0 := NewBufferWith_inv _ _
  have hoff0 : b0.offset = 1 := rfl
  have hmax0 : b0.maxSz = 2 ^ 40 := rfl
  have hpl : p.length = 2 ^ 32 := by rw [hp, List.length_replicate]
  obtain ⟨b', hwr⟩ := SliceAllocateFill_isSome b0 p hinv0
    (by rw [hoff0, hmax0, hpl]; norm_num)
  obtain ⟨hinv', hoff', hmax', hcur', hpre', hseg'⟩ :=
    SliceAllocateFill_some b0 p b' hinv0 hwr
  refine ⟨b', ?_, ?_⟩
  · show writeAll b0 [p] = some b'
    rw [writeAll, List.foldlM_cons, hwr]
    rfl
  · have hoffv : b'.offset = 5 + 2 ^ 32 := by
      have := hoff'
      rw [hoff0, hpl] at this
      omega
    obtain ⟨i1, i2, i3, i4⟩ := hinv'
    have hlenb : 5 + 2 ^ 32 ≤ b'.buf.length := by omega
    have hsegE : seg b'.buf 1 (5 + 2 ^ 32) = encodeU32 (2 ^ 32) ++ p := by
      have hs := hseg'
      rw [hoff0, hpl] at hs
      have e : (1 : Nat) + (4 + 2 ^ 32) = 5 + 2 ^ 32 := by omega
      rw [e] at hs
      rw [encRec, hpl] at hs
      exact hs
    have hdrop1 : b'.buf.drop 1 = encodeU32 (2 ^ 32) ++ (p ++ b'.buf.drop (5 + 2 ^ 32)) := by
      rw [drop_eq_seg_append b'.buf 1 (5 + 2 ^ 32) (by omega) hlenb, hsegE,
        List.append_assoc]
    have hread : readU32 (b'.buf.drop 1) = 0 := by
      rw [hdrop1, readU32_encodeU32_append]
      omega
    have hslice : b'.Slice 1 = (some [], 5) := by
      rw [Buffer.Slice, sliceRaw, if_neg (by omega)]
      rw [hread]
      have e4 : 1 + 4 = 5 := rfl
      rw [e4]
      show (some (seg b'.buf 5 (5 + 0)), if 5 + 0 ≥ b'.offset then 0 else 5 + 0)
        = (some [], 5)
      rw [Nat.add_zero, seg_self, if_neg (by omega)]
    have hchain : ∃ rest, chainRecords b' = ([] : Bytes) :: rest := by
      obtain ⟨f, hf⟩ : ∃ f, b'.offset = f + 1 := ⟨b'.offset - 1, by omega⟩
      refine ⟨(chainSteps b' f 5).filterMap Prod.fst, ?_⟩
      rw [chainRecords, hf, chainSteps, hslice]
      rfl
    obtain ⟨rest, hcr⟩ := hchain
    intro hEq
    rw [hcr] at hEq
    injection hEq with hhd _
    have hlen0 := congrArg List.length hhd
    rw [List.length_nil, hpl] at hlen0
    exact absurd hlen0 (by norm_num)

end Z
